import Mathlib

/-!
Shallow embedding of the `prisoner_dilemma` repository (files `agent.py` and
`run.py`).

Modelling conventions:
* Python action strings `'cooperate'` / `'defect'` become the two-element
  inductive type `Action` (these are the only action values the program ever
  produces or compares).
* Python dictionaries keyed by agent names become association lists
  (`Dict := List (String × List Action)`); Python dicts preserve insertion
  order, which the association list mirrors.  A failed dict lookup (Python
  `KeyError`) and an out-of-range index (Python `IndexError`) are modelled by
  `Option`: an operation that would raise returns `none`.
* `RandomAgent.choose_action` calls `np.random.choice`, an external
  nondeterministic source; it is modelled as an unresolved choice (`none`), so
  theorems about completed runs quantify over deterministic agents only.
* The `label` and `description` fields of `Agent` are presentation-only
  strings never read by the game logic; they are omitted from the embedding.
* Payoff values come from the JSON configuration; they are modelled as `Int`.
  The payoff matrix of the configuration may be missing entries, hence it is
  a partial map `Action → Action → Option (Int × Int)`.
-/

namespace PD

inductive Action where
  | cooperate
  | defect
deriving DecidableEq, Repr

inductive Strategy where
  | titForTat
  | random
  | titForTwoTats
  | grudger
  | cooperator
  | defector
deriving DecidableEq, Repr

/-- A Python dict `{opponent_name: [actions...]}` as an insertion-ordered
association list. -/
abbrev Dict := List (String × List Action)

/-- Dict lookup `d[k]`, returning `none` where Python would raise `KeyError`. -/
def dfind (d : Dict) (k : String) : Option (List Action) :=
  match d with
  | [] => none
  | kv :: rest => if kv.1 = k then some kv.2 else dfind rest k

/-- The Python membership test `k in d`. -/
def dmem (d : Dict) (k : String) : Bool :=
  (dfind d k).isSome

/-- The Python statement `d[k].append(a)`: extend the sequence stored at `k`.
The source only ever calls this with `k` present (it inserts the key first). -/
def dappend (d : Dict) (k : String) (a : Action) : Dict :=
  d.map (fun kv => if kv.1 = k then (kv.1, kv.2 ++ [a]) else kv)

/-- The `Agent` class of `agent.py` (fields `name`, `history`,
`oponent_history`, `score`; the subclass choice is the `strategy` tag). -/
structure Agent where
  name : String
  strategy : Strategy
  history : Dict
  oponent_history : Dict
  score : Int
deriving DecidableEq, Repr

/-- Agent construction (`Agent.__init__` plus the subclass tag). -/
def mkAgent (strategy : Strategy) (name : String) : Agent :=
  { name := name, strategy := strategy, history := [], oponent_history := [],
    score := 0 }

/-- The view of an agent's own recorded actions against `o` (empty when the
opponent was never met). -/
def histView (ag : Agent) (o : String) : List Action :=
  (dfind ag.history o).getD []

/-- The view of the opponent's recorded actions against this agent. -/
def oppView (ag : Agent) (o : String) : List Action :=
  (dfind ag.oponent_history o).getD []

/-- `Agent.update_history` of `agent.py`: lazily initialize both sequences on
first contact, then append the two simultaneous moves. -/
def Agent.update_history (ag : Agent) (opponent_name : String)
    (action oponent_action : Action) : Agent :=
  let h0 := if dmem ag.history opponent_name then ag.history
            else ag.history ++ [(opponent_name, [])]
  let o0 := if dmem ag.history opponent_name then ag.oponent_history
            else ag.oponent_history ++ [(opponent_name, [])]
  { ag with history := dappend h0 opponent_name action,
            oponent_history := dappend o0 opponent_name oponent_action }

/-- `Agent.update_score` of `agent.py`. -/
def Agent.update_score (ag : Agent) (payoff : Int) : Agent :=
  { ag with score := ag.score + payoff }

/-- The `choose_action` methods of the six registered agent subclasses of
`agent.py`, dispatched on the strategy tag.  `none` models a raised exception
(`KeyError`/`IndexError`), or the external randomness of `RandomAgent`. -/
def Agent.choose_action (ag : Agent) (opponent_name : String) : Option Action :=
  match ag.strategy with
  | .titForTat =>
      if dmem ag.history opponent_name then
        match dfind ag.oponent_history opponent_name with
        | some l => l.getLast?
        | none => none
      else some .cooperate
  | .random => none
  | .titForTwoTats =>
      if dmem ag.history opponent_name then
        if 2 ≤ ((dfind ag.history opponent_name).getD []).length then
          match dfind ag.oponent_history opponent_name with
          | some l =>
              match l.reverse[0]? with
              | some a1 =>
                  if a1 = .defect then
                    match l.reverse[1]? with
                    | some a2 =>
                        if a2 = .defect then some .defect else some .cooperate
                    | none => none
                  else some .cooperate
              | none => none
          | none => none
        else some .cooperate
      else some .cooperate
  | .grudger =>
      if dmem ag.history opponent_name then
        match dfind ag.oponent_history opponent_name with
        | some l => some (if l.contains .defect then .defect else .cooperate)
        | none => none
      else some .cooperate
  | .cooperator => some .cooperate
  | .defector => some .defect

/-- The registration table built by the `@factory.register(...)` decorators in
`agent.py` (kind string → agent subclass). -/
def agent_classes : List (String × Strategy) :=
  [("TitForTat", .titForTat), ("Random", .random),
   ("TitForTwoTats", .titForTwoTats), ("Grudger", .grudger),
   ("Cooperator", .cooperator), ("Defector", .defector)]

/-- `AgentFactory.create`: instantiate a registered agent class, or raise
`ValueError` for an unregistered kind. -/
def factory_create (name : String) (agent_name : String) : Except String Agent :=
  match agent_classes.find? (fun kv => kv.1 == name) with
  | some kv => Except.ok (mkAgent kv.2 agent_name)
  | none => Except.error ("Agent class " ++ name ++ " not registered.")

/-- One `{"type": ..., "name": ...}` entry of the configuration. -/
structure AgentConfig where
  type : String
  name : String
deriving DecidableEq, Repr

/-- The configuration dictionary consumed by `PrisonersDilemma.__init__`. -/
structure Config where
  agents : List AgentConfig
  payoff_matrix : Action → Action → Option (Int × Int)
  rounds : Nat

/-- The `PrisonersDilemma` class of `run.py`. -/
structure PrisonersDilemma where
  agents : List Agent
  payoff_matrix : Action → Action → Option (Int × Int)
  rounds : Nat

/-- `PrisonersDilemma.__init__`: build the agent list via the factory and
store the payoff matrix and round count unchanged (no validation of the
matrix happens here). -/
def PrisonersDilemma.ofConfig (config : Config) :
    Except String PrisonersDilemma := do
  let agents ← config.agents.mapM (fun a => factory_create a.type a.name)
  pure { agents := agents, payoff_matrix := config.payoff_matrix,
         rounds := config.rounds }

/-- `PrisonersDilemma.get_payoffs`: raw matrix lookup, `none` models the
`KeyError` raised on a missing entry. -/
def PrisonersDilemma.get_payoffs (g : PrisonersDilemma) (action1 action2 : Action) :
    Option (Int × Int) :=
  g.payoff_matrix action1 action2

/-- `PrisonersDilemma.play_round`: both agents choose from the pre-round
state, both histories are updated, then both scores. -/
def PrisonersDilemma.play_round (g : PrisonersDilemma) (agent1 agent2 : Agent) :
    Option (Agent × Agent) := do
  let action1 ← agent1.choose_action agent2.name
  let action2 ← agent2.choose_action agent1.name
  let agent1 := agent1.update_history agent2.name action1 action2
  let agent2 := agent2.update_history agent1.name action2 action1
  let (payoff1, payoff2) ← g.get_payoffs action1 action2
  pure (agent1.update_score payoff1, agent2.update_score payoff2)

/-- Variant of `play_round` with the two `choose_action` calls swapped, used
to state the simultaneity property. -/
def PrisonersDilemma.play_round_swapped (g : PrisonersDilemma)
    (agent1 agent2 : Agent) : Option (Agent × Agent) := do
  let action2 ← agent2.choose_action agent1.name
  let action1 ← agent1.choose_action agent2.name
  let agent1 := agent1.update_history agent2.name action1 action2
  let agent2 := agent2.update_history agent1.name action2 action1
  let (payoff1, payoff2) ← g.get_payoffs action1 action2
  pure (agent1.update_score payoff1, agent2.update_score payoff2)

/-- The index pairs visited by the nested loop
`for i, agent1 in enumerate(self.agents): for agent2 in self.agents[i+1:]`. -/
def round_pairs (n : Nat) : List (Nat × Nat) :=
  (List.range n).flatMap (fun i =>
    ((List.range n).filter (fun j => i < j)).map (fun j => (i, j)))

/-- One loop-body step of `run`: play the pair at indices `p` and write both
updated agents back into the list. -/
def PrisonersDilemma.play_pair (g : PrisonersDilemma) (agents : List Agent)
    (p : Nat × Nat) : Option (List Agent) := do
  let a1 ← agents[p.1]?
  let a2 ← agents[p.2]?
  let (a1, a2) ← g.play_round a1 a2
  pure ((agents.set p.1 a1).set p.2 a2)

/-- Fold of `play_pair` over a list of index pairs (the inner loop of `run`). -/
def run_pairs (g : PrisonersDilemma) (agents : List Agent)
    (L : List (Nat × Nat)) : Option (List Agent) :=
  L.foldlM g.play_pair agents

/-- `PrisonersDilemma.run`: for each round, play every pair `i < j` once. -/
def PrisonersDilemma.run (g : PrisonersDilemma) : Option (List Agent) :=
  (List.range g.rounds).foldlM
    (fun ags _ => run_pairs g ags (round_pairs ags.length)) g.agents

/-- The flattened schedule of index pairs visited by a full run: `r` copies of
the single-round pair list. -/
def schedule (r n : Nat) : List (Nat × Nat) :=
  (List.range r).flatMap (fun _ => round_pairs n)

/-- Well-formedness of one agent's recorded state: `history` and
`oponent_history` hold exactly the same opponent keys in the same order, keys
are unique, stored sequences are never empty, and for every recorded opponent
both sequences have equal length. -/
def AgentWF (ag : Agent) : Prop :=
  ag.history.map Prod.fst = ag.oponent_history.map Prod.fst ∧
  (ag.history.map Prod.fst).Nodup ∧
  (∀ kv ∈ ag.history, kv.2 ≠ []) ∧
  (∀ kv ∈ ag.oponent_history, kv.2 ≠ []) ∧
  (∀ k ∈ ag.history.map Prod.fst,
    (histView ag k).length = (oppView ag k).length)

instance (ag : Agent) : Decidable (AgentWF ag) := by
  unfold AgentWF
  infer_instance

/-- Relational invariant for one ordered pair of agents: membership in each
other's histories is mutual, and each side's recorded own actions coincide
with the other side's recorded opponent actions. -/
def pairSync (A B : Agent) : Prop :=
  dmem A.history B.name = dmem B.history A.name ∧
  histView A B.name = oppView B A.name ∧
  histView B A.name = oppView A B.name

/-- Global invariant on the agent list: pairwise-distinct names, per-agent
well-formedness, and pairwise synchronisation of the recorded histories. -/
def ListInv (agents : List Agent) : Prop :=
  (agents.map Agent.name).Nodup ∧
  (∀ (i : Nat) (A : Agent), agents[i]? = some A → AgentWF A) ∧
  (∀ (i j : Nat) (A B : Agent), agents[i]? = some A → agents[j]? = some B →
    i ≠ j → pairSync A B)

/-- Payoff credited to the owner of the `own` sequence: for each recorded
round, the first component of the matrix entry at the recorded action pair
(the recomputation also used by `visualize_games` in `run.py`). -/
def pairScore (pm : Action → Action → Option (Int × Int))
    (own opp : List Action) : Int :=
  ((own.zip opp).map (fun ab => ((pm ab.1 ab.2).getD (0, 0)).1)).sum

/-- Recomputation of an agent's total score from its retained histories and
the payoff model. -/
def recompute (pm : Action → Action → Option (Int × Int)) (ag : Agent) : Int :=
  (ag.history.map (fun kv => pairScore pm kv.2 (oppView ag kv.1))).sum

/-- Role-swap symmetry of the payoff matrix: the assumption the spec places
on the configuration (§4.3) without enforcing it. -/
def symmetricPM (pm : Action → Action → Option (Int × Int)) : Prop :=
  ∀ a b, pm a b = (pm b a).map (fun pq => (pq.2, pq.1))

/-- Agent states reachable from construction through the two mutating
methods of `agent.py`. -/
inductive ReachableAgent : Agent → Prop where
  | init (s : Strategy) (n : String) : ReachableAgent (mkAgent s n)
  | update_history (ag : Agent) (o : String) (a oa : Action) :
      ReachableAgent ag → ReachableAgent (ag.update_history o a oa)
  | update_score (ag : Agent) (p : Int) :
      ReachableAgent ag → ReachableAgent (ag.update_score p)

/-- Test whether a scheduled index pair plays the (unordered) pair
`{i, j}`. -/
def touchPair (i j : Nat) (q : Nat × Nat) : Bool :=
  (q == (i, j)) || (q == (j, i))

/-- The standard payoff matrix of the end-to-end scenario (§8 of the spec). -/
def stdpm : Action → Action → Option (Int × Int)
  | .cooperate, .cooperate => some (3, 3)
  | .cooperate, .defect => some (0, 5)
  | .defect, .cooperate => some (5, 0)
  | .defect, .defect => some (1, 1)

/-- TitForTat vs Defector, standard matrix, 3 rounds. -/
def game6 : PrisonersDilemma :=
  { agents := [mkAgent .titForTat "TFT", mkAgent .defector "D"],
    payoff_matrix := stdpm, rounds := 3 }

/-- The final TitForTat state of `game6.run`. -/
def tft6 : Agent :=
  { name := "TFT", strategy := .titForTat,
    history := [("D", [.cooperate, .defect, .defect])],
    oponent_history := [("D", [.defect, .defect, .defect])], score := 2 }

/-- The final Defector state of `game6.run`. -/
def d6 : Agent :=
  { name := "D", strategy := .defector,
    history := [("TFT", [.defect, .defect, .defect])],
    oponent_history := [("TFT", [.cooperate, .defect, .defect])], score := 7 }

/-- The final agent states of `game6.run`. -/
def final6 : List Agent := [tft6, d6]

/-- TitForTat vs Defector, standard matrix, 1 round. -/
def game8 : PrisonersDilemma :=
  { agents := [mkAgent .titForTat "TFT", mkAgent .defector "D"],
    payoff_matrix := stdpm, rounds := 1 }

/-- The final agent states of `game8.run`. -/
def final8 : List Agent :=
  [{ name := "TFT", strategy := .titForTat,
     history := [("D", [.cooperate])],
     oponent_history := [("D", [.defect])], score := 0 },
   { name := "D", strategy := .defector,
     history := [("TFT", [.defect])],
     oponent_history := [("TFT", [.cooperate])], score := 5 }]

/-- The final agent states after running `game8` a second time from
`final8`. -/
def final8x2 : List Agent :=
  [{ name := "TFT", strategy := .titForTat,
     history := [("D", [.cooperate, .defect])],
     oponent_history := [("D", [.defect, .defect])], score := 1 },
   { name := "D", strategy := .defector,
     history := [("TFT", [.defect, .defect])],
     oponent_history := [("TFT", [.cooperate, .defect])], score := 6 }]

/-- An asymmetric (but total) payoff matrix: mutual cooperation pays `(3, 0)`. -/
def asympm : Action → Action → Option (Int × Int)
  | .cooperate, .cooperate => some (3, 0)
  | .cooperate, .defect => some (0, 5)
  | .defect, .cooperate => some (5, 0)
  | .defect, .defect => some (1, 1)

/-- Two Cooperators playing one round under the asymmetric matrix. -/
def gameC2 : PrisonersDilemma :=
  { agents := [mkAgent .cooperator "A", mkAgent .cooperator "B"],
    payoff_matrix := asympm, rounds := 1 }

/-- A payoff matrix missing three of the four required entries. -/
def incpm : Action → Action → Option (Int × Int)
  | .cooperate, .cooperate => some (3, 3)
  | _, _ => none

/-- A configuration whose payoff matrix is incomplete. -/
def cfg5 : Config :=
  { agents := [{ type := "Defector", name := "A" },
               { type := "Defector", name := "B" }],
    payoff_matrix := incpm, rounds := 1 }

/-- The game the run driver builds from `cfg5`. -/
def game5 : PrisonersDilemma :=
  { agents := [mkAgent .defector "A", mkAgent .defector "B"],
    payoff_matrix := incpm, rounds := 1 }

/-- A configuration referencing the unregistered strategy kind `Pavlov`. -/
def cfg7 : Config :=
  { agents := [{ type := "TitForTat", name := "A" },
               { type := "Pavlov", name := "P" }],
    payoff_matrix := stdpm, rounds := 2 }

/-- A TitForTwoTats agent that has seen two consecutive defections. -/
def agC9 : Agent :=
  { name := "me", strategy := .titForTwoTats,
    history := [("B", [.cooperate, .cooperate])],
    oponent_history := [("B", [.defect, .defect])], score := 0 }

/-! ### Association-list lemmas -/

theorem dmem_false {d : Dict} {k : String} (h : ¬ dmem d k = true) :
    dfind d k = none := by
  cases hv : dfind d k with
  | none => rfl
  | some v => exact absurd (by rw [dmem, hv]; rfl) h

theorem dmem_some {d : Dict} {k : String} (h : dmem d k = true) :
    ∃ v, dfind d k = some v := by
  cases hv : dfind d k with
  | none => rw [dmem, hv] at h; cases h
  | some v => exact ⟨v, rfl⟩

theorem dfind_eq_none_iff {d : Dict} {k : String} :
    dfind d k = none ↔ k ∉ d.map Prod.fst := by
  induction d with
  | nil => simp [dfind]
  | cons kv rest ih =>
      rw [dfind]
      by_cases h : kv.1 = k
      · simp [h]
      · rw [if_neg h, ih]
        simp only [List.map_cons, List.mem_cons]
        constructor
        · intro hn hor
          rcases hor with h1 | h2
          · exact h h1.symm
          · exact hn h2
        · intro hn h2
          exact hn (Or.inr h2)

theorem dmem_iff {d : Dict} {k : String} :
    dmem d k = true ↔ k ∈ d.map Prod.fst := by
  rw [dmem, Option.isSome_iff_ne_none, ne_eq, dfind_eq_none_iff, not_not]

theorem dfind_mem {d : Dict} {k : String} {v : List Action}
    (h : dfind d k = some v) : (k, v) ∈ d := by
  induction d with
  | nil => simp [dfind] at h
  | cons kv rest ih =>
      by_cases hk : kv.1 = k
      · rw [dfind, if_pos hk] at h
        cases h
        rw [← hk]
        exact List.mem_cons_self _ _
      · rw [dfind, if_neg hk] at h
        exact List.mem_cons_of_mem _ (ih h)

theorem dfind_append_left {d e : Dict} {k : String} {v : List Action}
    (h : dfind d k = some v) : dfind (d ++ e) k = some v := by
  induction d with
  | nil => simp [dfind] at h
  | cons kv rest ih =>
      by_cases hk : kv.1 = k
      · rw [dfind, if_pos hk] at h
        simp [dfind, hk, h]
      · rw [dfind, if_neg hk] at h
        simp [dfind, hk, ih h]

theorem dfind_append_right {d e : Dict} {k : String}
    (h : dfind d k = none) : dfind (d ++ e) k = dfind e k := by
  induction d with
  | nil => simp [dfind]
  | cons kv rest ih =>
      by_cases hk : kv.1 = k
      · rw [dfind, if_pos hk] at h
        cases h
      · rw [dfind, if_neg hk] at h
        simp [dfind, hk, ih h]

theorem dfind_dappend_self (d : Dict) (k : String) (a : Action) :
    dfind (dappend d k a) k = (dfind d k).map (fun l => l ++ [a]) := by
  induction d with
  | nil => rfl
  | cons kv rest ih =>
      by_cases hk : kv.1 = k
      · simp [dfind, dappend, hk]
      · simp only [dappend, List.map_cons, if_neg hk, dfind, hk, if_false]
        exact ih

theorem dfind_cons (kv : String × List Action) (rest : Dict) (k : String) :
    dfind (kv :: rest) k = if kv.1 = k then some kv.2 else dfind rest k := rfl

theorem dfind_dappend_ne {kx k : String} (h : kx ≠ k) (d : Dict) (a : Action) :
    dfind (dappend d k a) kx = dfind d kx := by
  have hkk : ¬ k = kx := fun h2 => h h2.symm
  induction d with
  | nil => rfl
  | cons kv rest ih =>
      by_cases hk : kv.1 = k
      · have hx : ¬ kv.1 = kx := by rw [hk]; exact hkk
        simp only [dappend, List.map_cons, if_pos hk, dfind_cons, hx, if_false]
        exact ih
      · by_cases hx : kv.1 = kx
        · simp [dappend, dfind_cons, hk, hx, h]
        · simp only [dappend, List.map_cons, if_neg hk, dfind_cons, hx, if_false]
          exact ih

theorem keys_dappend (d : Dict) (k : String) (a : Action) :
    (dappend d k a).map Prod.fst = d.map Prod.fst := by
  induction d with
  | nil => rfl
  | cons kv rest ih =>
      by_cases hk : kv.1 = k
      · simp only [dappend, List.map_cons, if_pos hk] at ih ⊢
        rw [ih]
      · simp only [dappend, List.map_cons, if_neg hk] at ih ⊢
        rw [ih]

theorem mem_dappend {d : Dict} {k : String} {a : Action} {kv : String × List Action}
    (h : kv ∈ dappend d k a) :
    (kv.1 = k ∧ ∃ v, (k, v) ∈ d ∧ kv.2 = v ++ [a]) ∨ (kv.1 ≠ k ∧ kv ∈ d) := by
  rw [dappend, List.mem_map] at h
  obtain ⟨kw, hkw, heq⟩ := h
  by_cases hk : kw.1 = k
  · rw [if_pos hk] at heq
    subst heq
    left
    refine ⟨hk, kw.2, ?_, rfl⟩
    rw [← hk]
    exact hkw
  · rw [if_neg hk] at heq
    subst heq
    right
    exact ⟨hk, hkw⟩

/-! ### Lemmas about `update_history` and `update_score` -/

@[simp] theorem update_history_name (ag : Agent) (o : String) (a oa : Action) :
    (ag.update_history o a oa).name = ag.name := rfl

@[simp] theorem update_history_strategy (ag : Agent) (o : String) (a oa : Action) :
    (ag.update_history o a oa).strategy = ag.strategy := rfl

@[simp] theorem update_history_score (ag : Agent) (o : String) (a oa : Action) :
    (ag.update_history o a oa).score = ag.score := rfl

@[simp] theorem update_score_name (ag : Agent) (p : Int) :
    (ag.update_score p).name = ag.name := rfl

@[simp] theorem update_score_strategy (ag : Agent) (p : Int) :
    (ag.update_score p).strategy = ag.strategy := rfl

@[simp] theorem update_score_history (ag : Agent) (p : Int) :
    (ag.update_score p).history = ag.history := rfl

@[simp] theorem update_score_oponent_history (ag : Agent) (p : Int) :
    (ag.update_score p).oponent_history = ag.oponent_history := rfl

@[simp] theorem update_score_score (ag : Agent) (p : Int) :
    (ag.update_score p).score = ag.score + p := rfl

theorem dfind_singleton_ne {ox o : String} (h : ¬ o = ox) (v : List Action) :
    dfind [(o, v)] ox = none := by
  simp [dfind, h]

theorem dfind_concat_new {d : Dict} {o ox : String} (v : List Action) :
    dfind d ox = none → ¬ o = ox → dfind (d ++ [(o, v)]) ox = none := by
  intro hv ho
  rw [dfind_append_right hv]
  exact dfind_singleton_ne ho v

theorem dfind_update_hist_self (ag : Agent) (o : String) (a oa : Action) :
    dfind (ag.update_history o a oa).history o = some (histView ag o ++ [a]) := by
  by_cases h : dmem ag.history o = true
  · obtain ⟨v, hv⟩ := dmem_some h
    simp [Agent.update_history, h, dfind_dappend_self, hv, histView]
  · have hnone : dfind ag.history o = none := dmem_false h
    have h9 : dfind (ag.history ++ [(o, [])]) o = some [] := by
      rw [dfind_append_right hnone]
      simp [dfind]
    simp [Agent.update_history, h, dfind_dappend_self, h9, histView, hnone]

theorem dfind_update_hist_ne {ox o : String} (h : ox ≠ o)
    (ag : Agent) (a oa : Action) :
    dfind (ag.update_history o a oa).history ox = dfind ag.history ox := by
  by_cases hm : dmem ag.history o = true
  · simp [Agent.update_history, hm, dfind_dappend_ne h]
  · have expand : dfind (ag.history ++ [(o, [])]) ox = dfind ag.history ox := by
      cases hv : dfind ag.history ox with
      | some v => exact dfind_append_left hv
      | none => exact dfind_concat_new _ hv (fun h2 => h h2.symm)
    simp [Agent.update_history, hm, dfind_dappend_ne h, expand]

theorem dfind_update_opp_self (ag : Agent) (o : String) (a oa : Action)
    (hk : dmem ag.history o = dmem ag.oponent_history o) :
    dfind (ag.update_history o a oa).oponent_history o
      = some (oppView ag o ++ [oa]) := by
  by_cases h : dmem ag.history o = true
  · obtain ⟨v, hv⟩ := dmem_some (hk ▸ h)
    simp [Agent.update_history, h, dfind_dappend_self, hv, oppView]
  · have hnone : dfind ag.oponent_history o = none := by
      refine dmem_false ?_
      rw [← hk]
      exact h
    have h9 : dfind (ag.oponent_history ++ [(o, [])]) o = some [] := by
      rw [dfind_append_right hnone]
      simp [dfind]
    simp [Agent.update_history, h, dfind_dappend_self, h9, oppView, hnone]

theorem dfind_update_opp_ne {ox o : String} (h : ox ≠ o)
    (ag : Agent) (a oa : Action) :
    dfind (ag.update_history o a oa).oponent_history ox
      = dfind ag.oponent_history ox := by
  by_cases hm : dmem ag.history o = true
  · simp [Agent.update_history, hm, dfind_dappend_ne h]
  · have expand : dfind (ag.oponent_history ++ [(o, [])]) ox
        = dfind ag.oponent_history ox := by
      cases hv : dfind ag.oponent_history ox with
      | some v => exact dfind_append_left hv
      | none => exact dfind_concat_new _ hv (fun h2 => h h2.symm)
    simp [Agent.update_history, hm, dfind_dappend_ne h, expand]

theorem histView_update_self (ag : Agent) (o : String) (a oa : Action) :
    histView (ag.update_history o a oa) o = histView ag o ++ [a] := by
  rw [histView, dfind_update_hist_self, Option.getD_some]

theorem histView_update_ne {ox o : String} (h : ox ≠ o)
    (ag : Agent) (a oa : Action) :
    histView (ag.update_history o a oa) ox = histView ag ox := by
  rw [histView, dfind_update_hist_ne h, histView]

theorem oppView_update_self (ag : Agent) (o : String) (a oa : Action)
    (hk : dmem ag.history o = dmem ag.oponent_history o) :
    oppView (ag.update_history o a oa) o = oppView ag o ++ [oa] := by
  rw [oppView, dfind_update_opp_self ag o a oa hk, Option.getD_some]

theorem oppView_update_ne {ox o : String} (h : ox ≠ o)
    (ag : Agent) (a oa : Action) :
    oppView (ag.update_history o a oa) ox = oppView ag ox := by
  rw [oppView, dfind_update_opp_ne h, oppView]

theorem keys_update_hist (ag : Agent) (o : String) (a oa : Action) :
    (ag.update_history o a oa).history.map Prod.fst
      = (if dmem ag.history o then ag.history.map Prod.fst
         else ag.history.map Prod.fst ++ [o]) := by
  by_cases h : dmem ag.history o = true
  · simp [Agent.update_history, h, keys_dappend]
  · simp [Agent.update_history, h, keys_dappend]

theorem keys_update_opp (ag : Agent) (o : String) (a oa : Action) :
    (ag.update_history o a oa).oponent_history.map Prod.fst
      = (if dmem ag.history o then ag.oponent_history.map Prod.fst
         else ag.oponent_history.map Prod.fst ++ [o]) := by
  by_cases h : dmem ag.history o = true
  · simp [Agent.update_history, h, keys_dappend]
  · simp [Agent.update_history, h, keys_dappend]

/-! ### Per-agent well-formedness (the data-model invariant of the spec) -/

theorem AgentWF.mkAgent (s : Strategy) (n : String) : AgentWF (PD.mkAgent s n) := by
  refine ⟨rfl, List.nodup_nil, ?_, ?_, ?_⟩ <;> intro kv h <;> cases h

theorem AgentWF.dmem_eq {ag : Agent} (hwf : AgentWF ag) (k : String) :
    dmem ag.history k = dmem ag.oponent_history k := by
  by_cases h : dmem ag.history k = true
  · have := dmem_iff.mp h
    rw [hwf.1] at this
    rw [h, dmem_iff.mpr this]
  · have h2 : ¬ dmem ag.oponent_history k = true := by
      intro h2
      have := dmem_iff.mp h2
      rw [← hwf.1] at this
      exact h (dmem_iff.mpr this)
    rw [Bool.not_eq_true] at h h2
    rw [h, h2]

theorem AgentWF.view_len {ag : Agent} (hwf : AgentWF ag) (k : String) :
    (histView ag k).length = (oppView ag k).length := by
  by_cases h : dmem ag.history k = true
  · exact hwf.2.2.2.2 k (dmem_iff.mp h)
  · have h1 : dfind ag.history k = none := dmem_false h
    have h2 : dfind ag.oponent_history k = none := by
      refine dmem_false ?_
      rw [← hwf.dmem_eq k]
      exact h
    rw [histView, oppView, h1, h2]

theorem AgentWF.opp_ne_nil {ag : Agent} (hwf : AgentWF ag) {k : String}
    {l : List Action} (h : dfind ag.oponent_history k = some l) : l ≠ [] :=
  hwf.2.2.2.1 (k, l) (dfind_mem h)

theorem AgentWF.hist_ne_nil {ag : Agent} (hwf : AgentWF ag) {k : String}
    {l : List Action} (h : dfind ag.history k = some l) : l ≠ [] :=
  hwf.2.2.1 (k, l) (dfind_mem h)

/-- `update_history` preserves per-agent well-formedness. -/
theorem AgentWF.update_history {ag : Agent} (hwf : AgentWF ag)
    (o : String) (a oa : Action) : AgentWF (ag.update_history o a oa) := by
  have hkh := keys_update_hist ag o a oa
  have hko := keys_update_opp ag o a oa
  refine ⟨?_, ?_, ?_, ?_, ?_⟩
  · rw [hkh, hko, hwf.1]
  · rw [hkh]
    by_cases h : dmem ag.history o = true
    · rw [if_pos h]
      exact hwf.2.1
    · rw [Bool.not_eq_true] at h
      rw [h, if_neg (by simp)]
      have hnotin : o ∉ ag.history.map Prod.fst := by
        rw [← dfind_eq_none_iff]
        exact dmem_false (by rw [h]; simp)
      refine List.nodup_append.mpr ⟨hwf.2.1, List.nodup_singleton o, ?_⟩
      intro x hx h2
      rw [List.mem_singleton] at h2
      rw [h2] at hx
      exact hnotin hx
  · intro kv hkv
    cases ho : dmem ag.history o with
    | true =>
        simp only [Agent.update_history, ho, if_true] at hkv
        rcases mem_dappend hkv with ⟨h1, v, hv, h2⟩ | ⟨h1, h2⟩
        · rw [h2]
          simp
        · exact hwf.2.2.1 kv h2
    | false =>
        simp only [Agent.update_history, ho, Bool.false_eq_true, if_false] at hkv
        rcases mem_dappend hkv with ⟨h1, v, hv, h2⟩ | ⟨h1, h2⟩
        · rw [h2]
          simp
        · rcases List.mem_append.mp h2 with h3 | h3
          · exact hwf.2.2.1 kv h3
          · simp only [List.mem_singleton] at h3
            rw [h3] at h1
            exact absurd rfl h1
  · intro kv hkv
    cases ho : dmem ag.history o with
    | true =>
        simp only [Agent.update_history, ho, if_true] at hkv
        rcases mem_dappend hkv with ⟨h1, v, hv, h2⟩ | ⟨h1, h2⟩
        · rw [h2]
          simp
        · exact hwf.2.2.2.1 kv h2
    | false =>
        simp only [Agent.update_history, ho, Bool.false_eq_true, if_false] at hkv
        rcases mem_dappend hkv with ⟨h1, v, hv, h2⟩ | ⟨h1, h2⟩
        · rw [h2]
          simp
        · rcases List.mem_append.mp h2 with h3 | h3
          · exact hwf.2.2.2.1 kv h3
          · simp only [List.mem_singleton] at h3
            rw [h3] at h1
            exact absurd rfl h1
  · intro k _
    by_cases hko2 : k = o
    · rw [hko2, histView_update_self,
        oppView_update_self ag o a oa (hwf.dmem_eq o)]
      simp [hwf.view_len o]
    · rw [histView_update_ne hko2, oppView_update_ne hko2]
      exact hwf.view_len k

/-! ### Behaviour of `choose_action` on well-formed agents -/

/-- On a well-formed agent state, TitForTat's access to the last recorded
opponent action cannot fail. -/
theorem choose_action_tft_ne_none {ag : Agent} (hwf : AgentWF ag)
    (hs : ag.strategy = Strategy.titForTat) (o : String) :
    ag.choose_action o ≠ none := by
  by_cases h : dmem ag.history o = true
  · obtain ⟨l, hl⟩ := dmem_some ((hwf.dmem_eq o) ▸ h)
    have hsome : l.getLast?.isSome := List.getLast?_isSome.mpr (hwf.opp_ne_nil hl)
    simp only [Agent.choose_action, hs, h, if_true, hl]
    intro hc
    rw [hc] at hsome
    cases hsome
  · simp [Agent.choose_action, hs, h]

/-- Exact decision rule of TitForTwoTats on a well-formed agent state, in
terms of the recorded opponent view. -/
theorem choose_action_tf2t {ag : Agent} (hwf : AgentWF ag)
    (hs : ag.strategy = Strategy.titForTwoTats) (o : String) :
    ag.choose_action o =
      some (if 2 ≤ (oppView ag o).length
              ∧ (oppView ag o).reverse[0]? = some Action.defect
              ∧ (oppView ag o).reverse[1]? = some Action.defect
            then Action.defect else Action.cooperate) := by
  by_cases h : dmem ag.history o = true
  · obtain ⟨l, hl⟩ := dmem_some ((hwf.dmem_eq o) ▸ h)
    have hov : oppView ag o = l := by rw [oppView, hl]; rfl
    by_cases hlen : 2 ≤ l.length
    · have hlen2 : 2 ≤ ((dfind ag.history o).getD []).length := by
        have hh : (dfind ag.history o).getD [] = histView ag o := rfl
        rw [hh, hwf.view_len o, hov]
        exact hlen
      have h0 : 0 < l.reverse.length := by
        rw [List.length_reverse]
        omega
      have h1 : 1 < l.reverse.length := by
        rw [List.length_reverse]
        omega
      obtain ⟨a1, ha1⟩ : ∃ a, l.reverse[0]? = some a :=
        ⟨l.reverse[0], List.getElem?_eq_getElem h0⟩
      obtain ⟨a2, ha2⟩ : ∃ a, l.reverse[1]? = some a :=
        ⟨l.reverse[1], List.getElem?_eq_getElem h1⟩
      by_cases hd1 : a1 = Action.defect
      · by_cases hd2 : a2 = Action.defect
        · simp [Agent.choose_action, hs, h, hlen2, hl, hov, ha1, ha2, hd1,
            hd2, hlen]
        · simp [Agent.choose_action, hs, h, hlen2, hl, hov, ha1, ha2, hd1,
            hd2, hlen]
      · simp [Agent.choose_action, hs, h, hlen2, hl, hov, ha1, ha2, hd1]
    · have hlen2 : ¬ 2 ≤ ((dfind ag.history o).getD []).length := by
        have hh : (dfind ag.history o).getD [] = histView ag o := rfl
        rw [hh, hwf.view_len o, hov]
        exact hlen
      simp [Agent.choose_action, hs, h, hlen2, hov, hlen]
  · have hov : oppView ag o = [] := by
      rw [oppView, dmem_false (by rw [← hwf.dmem_eq o]; exact h)]
      rfl
    simp [Agent.choose_action, hs, h, hov]

/-! ### Pairwise synchronisation and the global list invariant -/

theorem dmem_update_self (ag : Agent) (o : String) (a oa : Action) :
    dmem (ag.update_history o a oa).history o = true := by
  rw [dmem, dfind_update_hist_self]
  rfl

theorem dmem_update_hist_ne {ox o : String} (h : ox ≠ o) (ag : Agent)
    (a oa : Action) :
    dmem (ag.update_history o a oa).history ox = dmem ag.history ox := by
  rw [dmem, dfind_update_hist_ne h, dmem]

theorem pairSync.symm {A B : Agent} (h : pairSync A B) : pairSync B A :=
  ⟨h.1.symm, h.2.2, h.2.1⟩

theorem AgentWF.update_score {ag : Agent} (hwf : AgentWF ag) (p : Int) :
    AgentWF (ag.update_score p) := hwf

theorem names_ne_of_nodup {agents : List Agent}
    (h : (agents.map Agent.name).Nodup) {i j : Nat} {A B : Agent}
    (hi : agents[i]? = some A) (hj : agents[j]? = some B) (hij : i ≠ j) :
    A.name ≠ B.name := by
  intro hname
  have hi2 : (agents.map Agent.name)[i]? = some A.name := by
    rw [List.getElem?_map, hi]
    rfl
  have hj2 : (agents.map Agent.name)[j]? = some B.name := by
    rw [List.getElem?_map, hj]
    rfl
  rw [← hname] at hj2
  obtain ⟨hi3, hix⟩ := List.getElem?_eq_some_iff.mp hi2
  obtain ⟨hj3, hjx⟩ := List.getElem?_eq_some_iff.mp hj2
  exact hij ((List.Nodup.getElem_inj_iff h).mp (hix.trans hjx.symm))

/-- Destructuring a successful `play_round` call into its constituents. -/
theorem play_round_eq {g : PrisonersDilemma} {a1 a2 b1 b2 : Agent}
    (h : g.play_round a1 a2 = some (b1, b2)) :
    ∃ act1 act2 q1 q2,
      a1.choose_action a2.name = some act1 ∧
      a2.choose_action a1.name = some act2 ∧
      g.get_payoffs act1 act2 = some (q1, q2) ∧
      b1 = (a1.update_history a2.name act1 act2).update_score q1 ∧
      b2 = (a2.update_history a1.name act2 act1).update_score q2 := by
  cases c1 : a1.choose_action a2.name with
  | none => simp [PrisonersDilemma.play_round, c1] at h
  | some act1 =>
  cases c2 : a2.choose_action a1.name with
  | none => simp [PrisonersDilemma.play_round, c1, c2] at h
  | some act2 =>
  cases cp : g.get_payoffs act1 act2 with
  | none => simp [PrisonersDilemma.play_round, c1, c2, cp] at h
  | some pq =>
      obtain ⟨q1, q2⟩ := pq
      simp only [PrisonersDilemma.play_round, c1, c2, cp, Option.bind_eq_bind,
        Option.some_bind, update_history_name, Option.pure_def,
        Option.some.injEq, Prod.mk.injEq] at h
      exact ⟨act1, act2, q1, q2, rfl, rfl, cp, h.1.symm, h.2.symm⟩

/-- Playing one round keeps the two played agents synchronised. -/
theorem pairSync_update {A B : Agent}
    (hwfA : AgentWF A) (hwfB : AgentWF B) (hs : pairSync A B)
    (act1 act2 : Action) (q1 q2 : Int) :
    pairSync ((A.update_history B.name act1 act2).update_score q1)
             ((B.update_history A.name act2 act1).update_score q2) := by
  refine ⟨?_, ?_, ?_⟩
  · show dmem (A.update_history B.name act1 act2).history B.name
        = dmem (B.update_history A.name act2 act1).history A.name
    rw [dmem_update_self, dmem_update_self]
  · show histView (A.update_history B.name act1 act2) B.name
        = oppView (B.update_history A.name act2 act1) A.name
    rw [histView_update_self, oppView_update_self B A.name act2 act1
      (hwfB.dmem_eq A.name), hs.2.1]
  · show histView (B.update_history A.name act2 act1) A.name
        = oppView (A.update_history B.name act1 act2) B.name
    rw [histView_update_self, oppView_update_self A B.name act1 act2
      (hwfA.dmem_eq B.name), hs.2.2]

/-- Playing one round with some third agent does not disturb pair
synchronisation with a bystander whose name differs from the played key. -/
theorem pairSync_update_left {A C : Agent} {o : String} (ho : C.name ≠ o)
    (hs : pairSync A C) (act1 act2 : Action) (q1 : Int) :
    pairSync ((A.update_history o act1 act2).update_score q1) C := by
  refine ⟨?_, ?_, ?_⟩
  · show dmem (A.update_history o act1 act2).history C.name
        = dmem C.history A.name
    rw [dmem_update_hist_ne ho, hs.1]
  · show histView (A.update_history o act1 act2) C.name = oppView C A.name
    rw [histView_update_ne ho, hs.2.1]
  · show histView C A.name = oppView (A.update_history o act1 act2) C.name
    rw [oppView_update_ne ho, hs.2.2]

theorem set_name_id {agents : List Agent} {i : Nat} {A : Agent}
    (h : agents[i]? = some A) :
    (agents.map Agent.name).set i A.name = agents.map Agent.name := by
  apply List.ext_getElem?
  intro n
  by_cases hn : n = i
  · subst hn
    rw [List.getElem?_set_self
      (by rw [List.length_map]; exact (List.getElem?_eq_some_iff.mp h).1),
      List.getElem?_map, h]
    rfl
  · rw [List.getElem?_set_ne (fun h2 => hn h2.symm)]

/-- One `play_pair` step preserves the global invariant and the name list. -/
theorem play_pair_ListInv {g : PrisonersDilemma} {agents agents2 : List Agent}
    {p : Nat × Nat} (hinv : ListInv agents) (hp : p.1 ≠ p.2)
    (h : g.play_pair agents p = some agents2) :
    ListInv agents2 ∧ agents2.map Agent.name = agents.map Agent.name := by
  cases hq1 : agents[p.1]? with
  | none => simp [PrisonersDilemma.play_pair, hq1] at h
  | some a1 =>
  cases hq2 : agents[p.2]? with
  | none => simp [PrisonersDilemma.play_pair, hq1, hq2] at h
  | some a2 =>
  cases hpr : g.play_round a1 a2 with
  | none => simp [PrisonersDilemma.play_pair, hq1, hq2, hpr] at h
  | some bb =>
  obtain ⟨b1, b2⟩ := bb
  have hagents2 : agents2 = (agents.set p.1 b1).set p.2 b2 := by
    simp only [PrisonersDilemma.play_pair, hq1, hq2, hpr, Option.bind_eq_bind,
      Option.some_bind, Option.pure_def, Option.some.injEq] at h
    first
    | exact h
    | exact h.symm
  obtain ⟨act1, act2, q1, q2, hc1, hc2, hcp, hb1, hb2⟩ := play_round_eq hpr
  have hi1 : p.1 < agents.length := (List.getElem?_eq_some_iff.mp hq1).1
  have hi2 : p.2 < agents.length := (List.getElem?_eq_some_iff.mp hq2).1
  have hwf1 : AgentWF a1 := hinv.2.1 p.1 a1 hq1
  have hwf2 : AgentWF a2 := hinv.2.1 p.2 a2 hq2
  have hb1name : b1.name = a1.name := by rw [hb1]; rfl
  have hb2name : b2.name = a2.name := by rw [hb2]; rfl
  have hget : ∀ k, agents2[k]? =
      if k = p.2 then some b2 else if k = p.1 then some b1 else agents[k]? := by
    intro k
    rw [hagents2]
    by_cases hk2 : k = p.2
    · subst hk2
      rw [if_pos rfl,
        List.getElem?_set_self (by rw [List.length_set]; exact hi2)]
    · rw [if_neg hk2, List.getElem?_set_ne (fun h2 => hk2 h2.symm)]
      by_cases hk1 : k = p.1
      · subst hk1
        rw [if_pos rfl, List.getElem?_set_self hi1]
      · rw [if_neg hk1, List.getElem?_set_ne (fun h2 => hk1 h2.symm)]
  have hnames : agents2.map Agent.name = agents.map Agent.name := by
    rw [hagents2, List.map_set, List.map_set, hb2name, hb1name,
      set_name_id hq1, set_name_id hq2]
  have hsync12 : pairSync a1 a2 := hinv.2.2 p.1 p.2 a1 a2 hq1 hq2 hp
  have hsyncb : pairSync b1 b2 := by
    rw [hb1, hb2]
    exact pairSync_update hwf1 hwf2 hsync12 act1 act2 q1 q2
  refine ⟨⟨by rw [hnames]; exact hinv.1, ?_, ?_⟩, hnames⟩
  · intro k A hk
    rw [hget k] at hk
    by_cases hk2 : k = p.2
    · rw [if_pos hk2] at hk
      cases hk
      rw [hb2]
      exact (hwf2.update_history _ _ _).update_score _
    · rw [if_neg hk2] at hk
      by_cases hk1 : k = p.1
      · rw [if_pos hk1] at hk
        cases hk
        rw [hb1]
        exact (hwf1.update_history _ _ _).update_score _
      · rw [if_neg hk1] at hk
        exact hinv.2.1 k A hk
  · intro i j A B hA hB hij
    rw [hget i] at hA
    rw [hget j] at hB
    by_cases hi2x : i = p.2
    · rw [if_pos hi2x] at hA
      cases hA
      by_cases hj1x : j = p.1
      · rw [if_neg (by omega), if_pos hj1x] at hB
        cases hB
        exact hsyncb.symm
      · have hj2x : ¬ j = p.2 := by omega
        rw [if_neg hj2x, if_neg hj1x] at hB
        have hnameC : B.name ≠ a1.name :=
          names_ne_of_nodup hinv.1 hB hq1 hj1x
        have hbase : pairSync a2 B := hinv.2.2 p.2 j a2 B hq2 hB (by omega)
        rw [hb2]
        exact pairSync_update_left hnameC hbase act2 act1 q2
    · rw [if_neg hi2x] at hA
      by_cases hi1x : i = p.1
      · rw [if_pos hi1x] at hA
        cases hA
        by_cases hj2x : j = p.2
        · rw [if_pos hj2x] at hB
          cases hB
          exact hsyncb
        · have hj1x : ¬ j = p.1 := by omega
          rw [if_neg hj2x, if_neg hj1x] at hB
          have hnameC : B.name ≠ a2.name :=
            names_ne_of_nodup hinv.1 hB hq2 hj2x
          have hbase : pairSync a1 B := hinv.2.2 p.1 j a1 B hq1 hB (by omega)
          rw [hb1]
          exact pairSync_update_left hnameC hbase act1 act2 q1
      · rw [if_neg hi1x] at hA
        by_cases hj2x : j = p.2
        · rw [if_pos hj2x] at hB
          cases hB
          have hnameC : A.name ≠ a1.name :=
            names_ne_of_nodup hinv.1 hA hq1 hi1x
          have hbase : pairSync a2 A := hinv.2.2 p.2 i a2 A hq2 hA (by omega)
          rw [hb2]
          exact (pairSync_update_left hnameC hbase act2 act1 q2).symm
        · rw [if_neg hj2x] at hB
          by_cases hj1x : j = p.1
          · rw [if_pos hj1x] at hB
            cases hB
            have hnameC : A.name ≠ a2.name :=
              names_ne_of_nodup hinv.1 hA hq2 hi2x
            have hbase : pairSync a1 A := hinv.2.2 p.1 i a1 A hq1 hA (by omega)
            rw [hb1]
            exact (pairSync_update_left hnameC hbase act1 act2 q1).symm
          · rw [if_neg hj1x] at hB
            exact hinv.2.2 i j A B hA hB hij

/-! ### Propagation of invariants through the scheduling folds -/

theorem mem_getElem_opt {α : Type} {l : List α} {x : α} (h : x ∈ l) :
    ∃ i : Nat, l[i]? = some x := by
  obtain ⟨n, hn⟩ := List.get_of_mem h
  exact ⟨n.1, by rw [List.getElem?_eq_getElem n.2]; simpa using hn⟩

theorem foldlM_option_inv {α β : Type} (P : α → Prop) (step : α → β → Option α)
    (l : List β)
    (hstep : ∀ s b s2, b ∈ l → P s → step s b = some s2 → P s2) :
    ∀ s s2, P s → l.foldlM step s = some s2 → P s2 := by
  induction l with
  | nil =>
      intro s s2 hP h
      rw [List.foldlM_nil] at h
      cases h
      exact hP
  | cons b rest ih =>
      intro s s2 hP h
      rw [List.foldlM_cons] at h
      cases hs : step s b with
      | none =>
          rw [hs] at h
          simp at h
      | some smid =>
          rw [hs] at h
          exact ih
            (fun s3 b2 s4 hb => hstep s3 b2 s4 (List.mem_cons_of_mem _ hb))
            smid s2 (hstep s b smid (List.mem_cons_self _ _) hP hs) h

theorem mem_round_pairs {n : Nat} {q : Nat × Nat} :
    q ∈ round_pairs n ↔ q.1 < q.2 ∧ q.2 < n := by
  obtain ⟨i, j⟩ := q
  constructor
  · intro h
    rw [round_pairs, List.mem_flatMap] at h
    obtain ⟨a, ha, hm⟩ := h
    rw [List.mem_map] at hm
    obtain ⟨b, hb, heq⟩ := hm
    rw [List.mem_filter, List.mem_range] at hb
    cases heq
    exact ⟨by simpa using hb.2, hb.1⟩
  · rintro ⟨h1, h2⟩
    rw [round_pairs, List.mem_flatMap]
    refine ⟨i, List.mem_range.mpr (lt_trans h1 h2), ?_⟩
    rw [List.mem_map]
    exact ⟨j, List.mem_filter.mpr ⟨List.mem_range.mpr h2, by simpa using h1⟩,
      rfl⟩

theorem run_pairs_inv {g : PrisonersDilemma} {agents agents2 : List Agent}
    {L : List (Nat × Nat)} (hL : ∀ q ∈ L, (q : Nat × Nat).1 ≠ q.2)
    (hinv : ListInv agents) (h : run_pairs g agents L = some agents2) :
    ListInv agents2 ∧ agents2.map Agent.name = agents.map Agent.name := by
  refine foldlM_option_inv
    (fun s => ListInv s ∧ s.map Agent.name = agents.map Agent.name)
    g.play_pair L ?_ agents agents2 ⟨hinv, rfl⟩ h
  intro s q s2 hq hP hstep
  obtain ⟨h1, h2⟩ := play_pair_ListInv hP.1 (hL q hq) hstep
  exact ⟨h1, h2.trans hP.2⟩

theorem run_inv {g : PrisonersDilemma} {final : List Agent}
    (hinv : ListInv g.agents) (h : g.run = some final) :
    ListInv final ∧ final.map Agent.name = g.agents.map Agent.name := by
  refine foldlM_option_inv
    (fun s => ListInv s ∧ s.map Agent.name = g.agents.map Agent.name)
    (fun ags _ => run_pairs g ags (round_pairs ags.length))
    (List.range g.rounds) ?_ g.agents final ⟨hinv, rfl⟩ h
  intro s r s2 hr hP hstep
  have hL : ∀ q ∈ round_pairs s.length, (q : Nat × Nat).1 ≠ q.2 := by
    intro q hq
    have := mem_round_pairs.mp hq
    omega
  obtain ⟨h1, h2⟩ := run_pairs_inv hL hP.1 hstep
  exact ⟨h1, h2.trans hP.2⟩

/-- Freshly constructed agents with distinct names satisfy the global
invariant. -/
theorem ListInv_fresh {agents : List Agent}
    (hnames : (agents.map Agent.name).Nodup)
    (hfresh : ∀ A ∈ agents, A.history = [] ∧ A.oponent_history = []) :
    ListInv agents := by
  refine ⟨hnames, ?_, ?_⟩
  · intro i A hi
    obtain ⟨he1, he2⟩ := hfresh A (List.getElem?_mem hi)
    refine ⟨by rw [he1, he2], by rw [he1]; exact List.nodup_nil, ?_, ?_, ?_⟩
    · rw [he1]
      intro kv hkv
      cases hkv
    · rw [he2]
      intro kv hkv
      cases hkv
    · rw [he1]
      intro k hk
      simp at hk
  · intro i j A B hi hj hij
    obtain ⟨hA1, hA2⟩ := hfresh A (List.getElem?_mem hi)
    obtain ⟨hB1, hB2⟩ := hfresh B (List.getElem?_mem hj)
    refine ⟨?_, ?_, ?_⟩
    · rw [dmem, dmem, hA1, hB1]
      rfl
    · rw [histView, oppView, hA1, hB2]
      rfl
    · rw [histView, oppView, hB1, hA2]
      rfl

/-! ### Claim C1 -/

/-- C1: the history-consistency invariant is preserved by every `play_pair`
step, and after any run from freshly built agents with pairwise-distinct
names, for every two distinct agents `A`, `B` that have played each other
the four recorded sequences have equal length
(`len(A.history[B]) = len(A.opponentHistory[B]) = len(B.history[A]) =
len(B.opponentHistory[A])`) and agree pointwise
(`A.history[B][k] = B.opponentHistory[A][k]`). -/
theorem C1_histories_consistent :
    (∀ (g : PrisonersDilemma) (agents agents2 : List Agent) (p : Nat × Nat),
        ListInv agents → p.1 ≠ p.2 → g.play_pair agents p = some agents2 →
        ListInv agents2) ∧
    (∀ (g : PrisonersDilemma) (final : List Agent),
        (g.agents.map Agent.name).Nodup →
        (∀ A ∈ g.agents, A.history = [] ∧ A.oponent_history = []) →
        g.run = some final →
        ∀ A ∈ final, ∀ B ∈ final, A.name ≠ B.name →
          dmem A.history B.name = true →
            (histView A B.name).length = (oppView A B.name).length ∧
            (oppView A B.name).length = (histView B A.name).length ∧
            (histView B A.name).length = (oppView B A.name).length ∧
            ∀ k : Nat, (histView A B.name)[k]? = (oppView B A.name)[k]?) := by
  constructor
  · intro g agents agents2 p hinv hp h
    exact (play_pair_ListInv hinv hp h).1
  · intro g final hnames hfresh hrun A hA B hB hname hmem
    obtain ⟨hfinal, -⟩ := run_inv (ListInv_fresh hnames hfresh) hrun
    obtain ⟨i, hi⟩ := mem_getElem_opt hA
    obtain ⟨j, hj⟩ := mem_getElem_opt hB
    have hij : i ≠ j := by
      intro h2
      rw [h2, hj] at hi
      cases hi
      exact hname rfl
    have hwfA : AgentWF A := hfinal.2.1 i A hi
    have hwfB : AgentWF B := hfinal.2.1 j B hj
    have hsync := hfinal.2.2 i j A B hi hj hij
    refine ⟨hwfA.view_len B.name, ?_, hwfB.view_len A.name, ?_⟩
    · rw [hsync.2.2]
    · intro k
      rw [hsync.2.1]

/-- Witness for C1 on the concrete TitForTat-vs-Defector game. -/
theorem C1_histories_consistent_witness :
    (histView tft6 "D").length = (oppView tft6 "D").length ∧
    (oppView tft6 "D").length = (histView d6 "TFT").length ∧
    (histView d6 "TFT").length = (oppView d6 "TFT").length ∧
    ∀ k : Nat, (histView tft6 "D")[k]? = (oppView d6 "TFT")[k]? :=
  C1_histories_consistent.2 game6 final6 (by decide) (by decide) (by decide)
    tft6 (by decide) d6 (by decide) (by decide) (by decide)

/-! ### Claim C3 -/

/-- C3: in `play_round` the two `choose_action` calls read only the pre-round
state, so swapping their order yields the same actions and the same resulting
state, for every pair of agents and every prior state. -/
theorem C3_simultaneous_choice (g : PrisonersDilemma) (a1 a2 : Agent) :
    g.play_round_swapped a1 a2 = g.play_round a1 a2 := by
  rw [PrisonersDilemma.play_round, PrisonersDilemma.play_round_swapped]
  cases a1.choose_action a2.name <;> cases a2.choose_action a1.name <;> rfl

/-! ### Claim C10 -/

/-- C10: every agent state reachable through the mutating calls of
`agent.py` has equal key sets in `history` and `oponent_history` with
non-empty stored sequences; consequently TitForTat's access to the last
element of `oponent_history[opponent]` never fails. -/
theorem C10_reachable_safety (ag : Agent) (hr : ReachableAgent ag) :
    (∀ k : String, dmem ag.history k = dmem ag.oponent_history k) ∧
    (∀ (k : String) (l : List Action), dfind ag.history k = some l →
      l ≠ []) ∧
    (∀ (k : String) (l : List Action), dfind ag.oponent_history k = some l →
      l ≠ []) ∧
    (ag.strategy = Strategy.titForTat →
      ∀ o : String, ag.choose_action o ≠ none) := by
  have hwf : AgentWF ag := by
    induction hr with
    | init s n => exact AgentWF.mkAgent s n
    | update_history ag2 o a oa hr2 ih => exact ih.update_history o a oa
    | update_score ag2 p hr2 ih => exact ih.update_score p
  exact ⟨hwf.dmem_eq, fun k l h => hwf.hist_ne_nil h,
    fun k l h => hwf.opp_ne_nil h,
    fun hs o => choose_action_tft_ne_none hwf hs o⟩

/-- Witness for C10: a TitForTat agent one update away from construction. -/
theorem C10_reachable_safety_witness :
    ((mkAgent Strategy.titForTat "me").update_history "B" Action.cooperate
      Action.defect).choose_action "B" ≠ none :=
  (C10_reachable_safety _
    (ReachableAgent.update_history _ "B" _ _
      (ReachableAgent.init Strategy.titForTat "me"))).2.2.2 rfl "B"

/-! ### Claim C9 -/

/-- C9: on any well-formed TitForTwoTats state, `choose_action` returns
Defect exactly when the opponent view holds at least two recorded rounds and
its last two entries are both Defect; in every other case it returns
Cooperate. -/
theorem C9_tit_for_two_tats {ag : Agent} (hwf : AgentWF ag)
    (hs : ag.strategy = Strategy.titForTwoTats) (o : String) :
    (ag.choose_action o = some Action.defect ↔
      (2 ≤ (oppView ag o).length ∧
       (oppView ag o).reverse[0]? = some Action.defect ∧
       (oppView ag o).reverse[1]? = some Action.defect)) ∧
    (ag.choose_action o = some Action.defect ∨
     ag.choose_action o = some Action.cooperate) := by
  have h := choose_action_tf2t hwf hs o
  constructor
  · rw [h]
    by_cases hC : 2 ≤ (oppView ag o).length ∧
        (oppView ag o).reverse[0]? = some Action.defect ∧
        (oppView ag o).reverse[1]? = some Action.defect
    · simp [hC]
    · simp [hC]
  · rw [h]
    by_cases hC : 2 ≤ (oppView ag o).length ∧
        (oppView ag o).reverse[0]? = some Action.defect ∧
        (oppView ag o).reverse[1]? = some Action.defect
    · simp [hC]
    · simp [hC]

/-- Witness for C9: opponent history `[Defect, Defect]` yields Defect. -/
theorem C9_tit_for_two_tats_witness :
    agC9.choose_action "B" = some Action.defect :=
  (C9_tit_for_two_tats (by decide) rfl "B").1.mpr (by decide)

/-! ### Claim C4: scheduling and round counting -/

theorem play_pair_length {g : PrisonersDilemma} {agents agents2 : List Agent}
    {p : Nat × Nat} (h : g.play_pair agents p = some agents2) :
    agents2.length = agents.length := by
  cases hq1 : agents[p.1]? with
  | none => simp [PrisonersDilemma.play_pair, hq1] at h
  | some a1 =>
  cases hq2 : agents[p.2]? with
  | none => simp [PrisonersDilemma.play_pair, hq1, hq2] at h
  | some a2 =>
  cases hpr : g.play_round a1 a2 with
  | none => simp [PrisonersDilemma.play_pair, hq1, hq2, hpr] at h
  | some bb =>
      simp only [PrisonersDilemma.play_pair, hq1, hq2, hpr, Option.bind_eq_bind,
        Option.some_bind, Option.pure_def, Option.some.injEq] at h
      rw [← h, List.length_set, List.length_set]

theorem run_pairs_length {g : PrisonersDilemma} {agents agents2 : List Agent}
    {L : List (Nat × Nat)} (h : run_pairs g agents L = some agents2) :
    agents2.length = agents.length :=
  foldlM_option_inv (fun s => s.length = agents.length) g.play_pair L
    (fun _ _ _ _ hP hstep => (play_pair_length hstep).trans hP)
    agents agents2 rfl h

theorem run_pairs_rounds (g : PrisonersDilemma) (n : Nat) :
    ∀ (r : Nat) (s : List Agent), s.length = n →
      (List.range r).foldlM
        (fun ags _ => run_pairs g ags (round_pairs ags.length)) s
        = run_pairs g s (schedule r n) := by
  intro r
  induction r with
  | zero =>
      intro s hs
      rfl
  | succ r ih =>
      intro s hs
      have hsch : schedule (r + 1) n = schedule r n ++ round_pairs n := by
        rw [schedule, List.range_succ, List.flatMap_append, schedule]
        simp
      rw [hsch, run_pairs, List.foldlM_append, List.range_succ,
        List.foldlM_append, ih s hs]
      rw [run_pairs]
      cases hmid : List.foldlM g.play_pair s (schedule r n) with
      | none => rfl
      | some smid =>
          have hlen : smid.length = n := by
            rw [← hs]
            exact run_pairs_length hmid
          simp only [Option.bind_eq_bind, Option.some_bind, List.foldlM_cons,
            List.foldlM_nil]
          rw [← hlen, run_pairs]
          cases hstep : List.foldlM g.play_pair smid (round_pairs smid.length) with
          | none => rfl
          | some s2 => rfl

/-- A full run is the fold of `play_pair` over the flat schedule. -/
theorem run_eq_schedule (g : PrisonersDilemma) :
    g.run = run_pairs g g.agents (schedule g.rounds g.agents.length) := by
  rw [PrisonersDilemma.run]
  exact run_pairs_rounds g g.agents.length g.rounds g.agents rfl

theorem length_filter_range (n i : Nat) :
    ((List.range n).filter (fun j => i < j)).length = n - i - 1 := by
  induction n with
  | zero =>
      simp
  | succ n ih =>
      rw [List.range_succ, List.filter_append, List.length_append, ih,
        List.filter_singleton]
      by_cases h : i < n
      · simp only [decide_eq_true h, cond_true, List.length_cons,
          List.length_nil]
        omega
      · simp only [decide_eq_false h, cond_false, List.length_nil]
        omega

theorem list_range_map_sum (n : Nat) (f : Nat → Nat) :
    ((List.range n).map f).sum = ∑ i in Finset.range n, f i := rfl

theorem length_round_pairs (n : Nat) :
    (round_pairs n).length = n * (n - 1) / 2 := by
  have key : (round_pairs n).length = ∑ i in Finset.range n, (n - 1 - i) := by
    rw [round_pairs, List.length_flatMap, list_range_map_sum]
    refine Finset.sum_congr rfl ?_
    intro i _
    rw [Function.comp_apply, List.length_map, length_filter_range]
    omega
  rw [key, Finset.sum_range_reflect (fun i => i) n]
  have h2 := Finset.sum_range_id_mul_two n
  omega

theorem length_schedule (r n : Nat) :
    (schedule r n).length = r * (n * (n - 1) / 2) := by
  induction r with
  | zero => simp [schedule]
  | succ r ih =>
      rw [schedule, List.range_succ, List.flatMap_append, List.length_append]
      rw [schedule] at ih
      rw [ih]
      simp [length_round_pairs]
      ring

theorem nodup_round_pairs (n : Nat) : (round_pairs n).Nodup := by
  rw [round_pairs]
  refine List.nodup_flatMap.mpr ⟨?_, ?_⟩
  · intro i hi
    refine List.Nodup.map ?_ ((List.nodup_range n).filter _)
    intro x y hxy
    simpa using congrArg Prod.snd hxy
  · refine List.Pairwise.imp ?_ (List.pairwise_lt_range n)
    intro a b hab x hxa hxb
    rw [List.mem_map] at hxa hxb
    obtain ⟨ja, -, hja⟩ := hxa
    obtain ⟨jb, -, hjb⟩ := hxb
    rw [← hja, Prod.mk.injEq] at hjb
    exact absurd hjb.1 (by omega)

theorem count_one_of_nodup {l : List (Nat × Nat)} {a : Nat × Nat}
    (h : l.Nodup) (hm : a ∈ l) : l.count a = 1 := by
  induction l with
  | nil => cases hm
  | cons b rest ih =>
      rw [List.count_cons]
      rcases List.mem_cons.mp hm with h1 | h1
      · subst h1
        have h0 : rest.count a = 0 := by
          rw [List.count_eq_zero]
          exact (List.nodup_cons.mp h).1
        rw [h0]
        simp
      · have hba : ¬ b = a := by
          intro h2
          subst h2
          exact (List.nodup_cons.mp h).1 h1
        rw [ih (List.nodup_cons.mp h).2 h1]
        simp [hba]

theorem count_round_pairs {n i j : Nat} (h1 : i < j) (h2 : j < n) :
    (round_pairs n).count (i, j) = 1 :=
  count_one_of_nodup (nodup_round_pairs n) (mem_round_pairs.mpr ⟨h1, h2⟩)

/-- C4: a full run folds `play_round` over the flat schedule, whose length is
exactly `rounds * n * (n - 1) / 2`; a single round visits exactly the index
pairs `i < j < n` (no self-play, no reversed duplicates), each exactly
once. -/
theorem C4_round_count :
    (∀ g : PrisonersDilemma,
        g.run = run_pairs g g.agents (schedule g.rounds g.agents.length)) ∧
    (∀ r n : Nat, (schedule r n).length = r * (n * (n - 1) / 2)) ∧
    (∀ (n : Nat) (q : Nat × Nat), q ∈ round_pairs n ↔ q.1 < q.2 ∧ q.2 < n) ∧
    (∀ n i j : Nat, i < j → j < n → (round_pairs n).count (i, j) = 1) :=
  ⟨run_eq_schedule, length_schedule, fun _ _ => mem_round_pairs,
    fun _ _ _ h1 h2 => count_round_pairs h1 h2⟩

/-- Witness for C4 at two agents: the pair `(0, 1)` is scheduled exactly once
per round, and three rounds of a two-agent game schedule three pairs. -/
theorem C4_round_count_witness :
    (round_pairs 2).count (0, 1) = 1 ∧ (schedule 3 2).length = 3 :=
  ⟨C4_round_count.2.2.2 2 0 1 (by decide) (by decide),
    (C4_round_count.2.1 3 2).trans (by decide)⟩

/-! ### Claim C6: end-to-end scenario -/

/-- C6: TitForTat vs Defector, standard matrix, 3 rounds: round 1 TitForTat
cooperates while the Defector defects, rounds 2 and 3 both defect, and the
final scores are TitForTat = 2 and Defector = 7 (see `final6`, which records
the full per-round action sequences). -/
theorem C6_end_to_end : game6.run = some final6 := by
  decide

/-! ### Claim C7: unknown strategy kinds -/

theorem ofConfig_isOk (cfg : Config) :
    (PrisonersDilemma.ofConfig cfg).isOk
      = (cfg.agents.mapM (fun a => factory_create a.type a.name)).isOk := by
  rw [PrisonersDilemma.ofConfig]
  cases h : cfg.agents.mapM (fun a => factory_create a.type a.name) with
  | error e => rfl
  | ok v => rfl

theorem mapM_isOk_false {l : List AgentConfig} {a : AgentConfig} (ha : a ∈ l)
    (hf : (factory_create a.type a.name).isOk = false) :
    (l.mapM (fun x => factory_create x.type x.name)).isOk = false := by
  induction l with
  | nil => cases ha
  | cons b rest ih =>
      rw [List.mapM_cons]
      cases hb : factory_create b.type b.name with
      | error e => rfl
      | ok v =>
          rcases List.mem_cons.mp ha with h1 | h1
          · subst h1
            rw [hb] at hf
            cases hf
          · have hrest := ih h1
            cases hrest2 : rest.mapM (fun x => factory_create x.type x.name) with
            | error e2 => rfl
            | ok lv =>
                rw [hrest2] at hrest
                cases hrest

/-- C7: `create` on an unregistered kind fails with the not-registered error
(and so builds nothing), and any configuration referencing an unregistered
kind makes the run-driver construction fail. -/
theorem C7_unknown_strategy_kind :
    (∀ kind agent_name : String,
        agent_classes.find? (fun kv => kv.1 == kind) = none →
        factory_create kind agent_name =
          Except.error ("Agent class " ++ kind ++ " not registered.")) ∧
    (∀ (cfg : Config) (a : AgentConfig), a ∈ cfg.agents →
        agent_classes.find? (fun kv => kv.1 == a.type) = none →
        (PrisonersDilemma.ofConfig cfg).isOk = false) := by
  constructor
  · intro kind agent_name h
    rw [factory_create, h]
  · intro cfg a ha h
    rw [ofConfig_isOk]
    refine mapM_isOk_false ha ?_
    rw [factory_create, h]
    rfl

/-- Witness for C7: the unregistered kind `Pavlov`. -/
theorem C7_unknown_strategy_kind_witness :
    factory_create "Pavlov" "P" =
      Except.error ("Agent class " ++ "Pavlov" ++ " not registered.") ∧
    (PrisonersDilemma.ofConfig cfg7).isOk = false :=
  ⟨C7_unknown_strategy_kind.1 "Pavlov" "P" (by decide),
   C7_unknown_strategy_kind.2 cfg7 { type := "Pavlov", name := "P" }
     (by decide) (by decide)⟩

/-! ### Claim C5: incomplete payoff matrix is not detected at construction -/

/-- C5 counterexample: with the incomplete matrix `incpm`, construction of
the game from `cfg5` succeeds (no configuration error is surfaced before the
simulation), the built game is `game5`, and the error instead appears during
play: the run fails. -/
theorem C5_fail_fast_counterexample :
    (PrisonersDilemma.ofConfig cfg5).isOk = true ∧
    ((PrisonersDilemma.ofConfig cfg5).toOption.map PrisonersDilemma.agents)
      = some game5.agents ∧
    game5.run = none := by
  refine ⟨by decide, by decide, by decide⟩

/-- C5 amended: `PrisonersDilemma.__init__` performs no validation of the
payoff matrix, so construction succeeds or fails independently of it; a
missing ordered action-pair entry instead surfaces as a failed `get_payoffs`
lookup during play, making `play_round` fail at the first round that needs
the missing entry. -/
theorem C5_no_fail_fast_amended :
    (∀ (cfg : Config) (pm2 : Action → Action → Option (Int × Int)),
        (PrisonersDilemma.ofConfig { cfg with payoff_matrix := pm2 }).isOk
          = (PrisonersDilemma.ofConfig cfg).isOk) ∧
    (∀ (g : PrisonersDilemma) (a1 a2 : Agent) (act1 act2 : Action),
        a1.choose_action a2.name = some act1 →
        a2.choose_action a1.name = some act2 →
        g.get_payoffs act1 act2 = none →
        g.play_round a1 a2 = none) := by
  constructor
  · intro cfg pm2
    rw [ofConfig_isOk, ofConfig_isOk]
  · intro g a1 a2 act1 act2 h1 h2 h3
    simp [PrisonersDilemma.play_round, h1, h2, h3]

/-- Witness for C5: two Defectors under the incomplete matrix; the round
fails at the payoff lookup. -/
theorem C5_no_fail_fast_amended_witness :
    game5.play_round (mkAgent Strategy.defector "A")
      (mkAgent Strategy.defector "B") = none :=
  C5_no_fail_fast_amended.2 game5 (mkAgent Strategy.defector "A")
    (mkAgent Strategy.defector "B") Action.defect Action.defect rfl rfl rfl

/-! ### Claim C2: score additivity -/

theorem pairScore_append (pm : Action → Action → Option (Int × Int))
    {own opp : List Action} (h : own.length = opp.length) (a oa : Action) :
    pairScore pm (own ++ [a]) (opp ++ [oa])
      = pairScore pm own opp + ((pm a oa).getD (0, 0)).1 := by
  rw [pairScore, List.zip_append h, List.map_append, List.sum_append, pairScore]
  simp

theorem dappend_not_mem {d : Dict} {o : String} (h : dfind d o = none)
    (a : Action) : dappend d o a = d := by
  induction d with
  | nil => rfl
  | cons kv rest ih =>
      rw [dfind_cons] at h
      by_cases hk : kv.1 = o
      · rw [if_pos hk] at h
        cases h
      · rw [if_neg hk] at h
        rw [dappend, List.map_cons, if_neg hk]
        rw [dappend] at ih
        rw [ih h]

theorem recompute_update_score (pm : Action → Action → Option (Int × Int))
    (ag : Agent) (p : Int) :
    recompute pm (ag.update_score p) = recompute pm ag := rfl

/-- Updating the unique entry with key `o` in an association list changes the
mapped sum by exactly the change of that entry. -/
theorem sum_map_update {hist : Dict} {o : String}
    (hnodup : (hist.map Prod.fst).Nodup) {v : List Action}
    (hv : dfind hist o = some v)
    {f g : String × List Action → Int} {c : Int}
    (hne : ∀ kv ∈ hist, kv.1 ≠ o → g kv = f kv)
    (ho : g (o, v) = f (o, v) + c) :
    (hist.map g).sum = (hist.map f).sum + c := by
  induction hist with
  | nil => cases hv
  | cons kv rest ih =>
      rw [List.map_cons] at hnodup
      have hnd := List.nodup_cons.mp hnodup
      by_cases hk : kv.1 = o
      · rw [dfind_cons, if_pos hk] at hv
        cases hv
        have hrest : rest.map g = rest.map f := by
          refine List.map_eq_map_iff.mpr ?_
          intro kw hkw
          refine hne kw (List.mem_cons_of_mem _ hkw) ?_
          intro h2
          refine hnd.1 ?_
          rw [hk, ← h2]
          exact List.mem_map.mpr ⟨kw, hkw, rfl⟩
        rw [List.map_cons, List.map_cons, List.sum_cons, List.sum_cons, hrest]
        have hkv : g kv = f kv + c := by
          rw [← hk] at ho
          exact ho
        rw [hkv]
        ring
      · rw [dfind_cons, if_neg hk] at hv
        have hg : g kv = f kv := hne kv (List.mem_cons_self _ _) hk
        rw [List.map_cons, List.map_cons, List.sum_cons, List.sum_cons, hg,
          ih hnd.2 hv (fun kw hkw h2 => hne kw (List.mem_cons_of_mem _ hkw) h2)]
        ring

/-- Effect of `update_history` on the recomputed score: it grows by the first
component of the matrix entry at the appended action pair. -/
theorem recompute_update {pm : Action → Action → Option (Int × Int)}
    {ag : Agent} (hwf : AgentWF ag) (o : String) (a oa : Action) :
    recompute pm (ag.update_history o a oa)
      = recompute pm ag + ((pm a oa).getD (0, 0)).1 := by
  by_cases hm : dmem ag.history o = true
  · obtain ⟨v, hv⟩ := dmem_some hm
    have hhist : (ag.update_history o a oa).history = dappend ag.history o a := by
      simp [Agent.update_history, hm]
    rw [recompute, hhist, dappend, List.map_map, recompute]
    refine sum_map_update hwf.2.1 hv ?_ ?_
    · intro kv hkv hne
      simp only [Function.comp_apply, if_neg hne]
      rw [oppView_update_ne hne]
    · simp only [Function.comp_apply, eq_self_iff_true, if_true]
      rw [oppView_update_self ag o a oa (hwf.dmem_eq o)]
      have hlen : v.length = (oppView ag o).length := by
        have h2 := hwf.view_len o
        rw [histView, hv] at h2
        exact h2
      exact pairScore_append pm hlen a oa
  · have hnone : dfind ag.history o = none := dmem_false hm
    have hkeys : ∀ kv ∈ ag.history, kv.1 ≠ o := by
      intro kv hkv h2
      have : o ∈ ag.history.map Prod.fst :=
        List.mem_map.mpr ⟨kv, hkv, h2⟩
      exact (dfind_eq_none_iff.mp hnone) this
    have hhist : (ag.update_history o a oa).history
        = ag.history ++ [(o, [a])] := by
      simp only [Agent.update_history, hm, Bool.false_eq_true, if_false]
      rw [dappend, List.map_append]
      congr 1
      · exact dappend_not_mem hnone a
      · simp
    rw [recompute, hhist, List.map_append, List.sum_append, recompute]
    have hrest : (ag.history.map
          (fun kv => pairScore pm kv.2 (oppView (ag.update_history o a oa) kv.1)))
        = (ag.history.map (fun kv => pairScore pm kv.2 (oppView ag kv.1))) := by
      refine List.map_eq_map_iff.mpr ?_
      intro kv hkv
      rw [oppView_update_ne (hkeys kv hkv)]
    rw [hrest]
    have hopp0 : oppView ag o = [] := by
      rw [oppView, dmem_false (by rw [← hwf.dmem_eq o]; exact hm)]
      rfl
    have hlast : ([((o : String), ([a] : List Action))].map
          (fun kv => pairScore pm kv.2 (oppView (ag.update_history o a oa) kv.1))).sum
        = ((pm a oa).getD (0, 0)).1 := by
      rw [List.map_singleton, List.sum_singleton]
      rw [oppView_update_self ag o a oa (hwf.dmem_eq o), hopp0]
      simp [pairScore]
    rw [hlast]

theorem mem_schedule {r n : Nat} {q : Nat × Nat} (h : q ∈ schedule r n) :
    q.1 < q.2 ∧ q.2 < n := by
  rw [schedule, List.mem_flatMap] at h
  obtain ⟨-, -, hq⟩ := h
  exact mem_round_pairs.mp hq

/-- One `play_pair` step preserves "running score equals recomputed score"
when the payoff matrix is role-swap symmetric. -/
theorem play_pair_score {g : PrisonersDilemma} {agents agents2 : List Agent}
    {p : Nat × Nat} (hsym : symmetricPM g.payoff_matrix)
    (hinv : ListInv agents) (hp : p.1 ≠ p.2)
    (hscore : ∀ (i : Nat) (A : Agent), agents[i]? = some A →
      A.score = recompute g.payoff_matrix A)
    (h : g.play_pair agents p = some agents2) :
    ∀ (i : Nat) (A : Agent), agents2[i]? = some A →
      A.score = recompute g.payoff_matrix A := by
  cases hq1 : agents[p.1]? with
  | none => simp [PrisonersDilemma.play_pair, hq1] at h
  | some a1 =>
  cases hq2 : agents[p.2]? with
  | none => simp [PrisonersDilemma.play_pair, hq1, hq2] at h
  | some a2 =>
  cases hpr : g.play_round a1 a2 with
  | none => simp [PrisonersDilemma.play_pair, hq1, hq2, hpr] at h
  | some bb =>
  obtain ⟨b1, b2⟩ := bb
  have hagents2 : agents2 = (agents.set p.1 b1).set p.2 b2 := by
    simp only [PrisonersDilemma.play_pair, hq1, hq2, hpr, Option.bind_eq_bind,
      Option.some_bind, Option.pure_def, Option.some.injEq] at h
    first
    | exact h
    | exact h.symm
  obtain ⟨act1, act2, q1, q2, hc1, hc2, hcp, hb1, hb2⟩ := play_round_eq hpr
  have hi1 : p.1 < agents.length := (List.getElem?_eq_some_iff.mp hq1).1
  have hi2 : p.2 < agents.length := (List.getElem?_eq_some_iff.mp hq2).1
  have hwf1 : AgentWF a1 := hinv.2.1 p.1 a1 hq1
  have hwf2 : AgentWF a2 := hinv.2.1 p.2 a2 hq2
  have hpm : g.payoff_matrix act1 act2 = some (q1, q2) := hcp
  have hpm2 : g.payoff_matrix act2 act1 = some (q2, q1) := by
    rw [hsym act2 act1, hpm]
    rfl
  have hscore1 : b1.score = recompute g.payoff_matrix b1 := by
    rw [hb1, recompute_update_score, recompute_update hwf1 a2.name act1 act2,
      update_score_score, update_history_score, hscore p.1 a1 hq1, hpm]
    rfl
  have hscore2 : b2.score = recompute g.payoff_matrix b2 := by
    rw [hb2, recompute_update_score, recompute_update hwf2 a1.name act2 act1,
      update_score_score, update_history_score, hscore p.2 a2 hq2, hpm2]
    rfl
  intro k A hk
  rw [hagents2] at hk
  by_cases hk2 : k = p.2
  · subst hk2
    rw [List.getElem?_set_self (by rw [List.length_set]; exact hi2)] at hk
    cases hk
    exact hscore2
  · rw [List.getElem?_set_ne (fun h2 => hk2 h2.symm)] at hk
    by_cases hk1 : k = p.1
    · subst hk1
      rw [List.getElem?_set_self hi1] at hk
      cases hk
      exact hscore1
    · rw [List.getElem?_set_ne (fun h2 => hk1 h2.symm)] at hk
      exact hscore k A hk

/-- C2 counterexample: under the asymmetric total matrix `asympm`, after one
round of `gameC2` the second Cooperator holds running score 0 (it received
the second component of `asympm cooperate cooperate = (3, 0)`), while the
payoff recomputed from its own histories and the payoff model is 3 — the
claim fails as stated. -/
theorem C2_score_additivity_counterexample :
    ¬ (∀ A ∈ (gameC2.run).getD [], A.score = recompute gameC2.payoff_matrix A) := by
  decide

/-- C2 amended: assuming the role-swap symmetry the spec posits for payoff
configurations (§4.3), after a full run from freshly built agents every
agent's running `score` equals the sum over its recorded opponents and round
indices of the payoff the model assigns to the recorded action pair. -/
theorem C2_score_additivity_amended {g : PrisonersDilemma}
    {final : List Agent} (hsym : symmetricPM g.payoff_matrix)
    (hnames : (g.agents.map Agent.name).Nodup)
    (hfresh : ∀ A ∈ g.agents,
      A.history = [] ∧ A.oponent_history = [] ∧ A.score = 0)
    (hrun : g.run = some final) :
    ∀ A ∈ final, A.score = recompute g.payoff_matrix A := by
  rw [run_eq_schedule] at hrun
  have hP := foldlM_option_inv
    (fun s => ListInv s ∧ ∀ (i : Nat) (A : Agent), s[i]? = some A →
      A.score = recompute g.payoff_matrix A)
    g.play_pair (schedule g.rounds g.agents.length) ?_ g.agents final
    ⟨ListInv_fresh hnames
        (fun A hA => ⟨(hfresh A hA).1, (hfresh A hA).2.1⟩), ?_⟩ hrun
  · intro A hA
    obtain ⟨i, hi⟩ := mem_getElem_opt hA
    exact hP.2 i A hi
  · intro s q s2 hq hPs hstep
    have hne := mem_schedule hq
    exact ⟨(play_pair_ListInv hPs.1 (by omega) hstep).1,
      play_pair_score hsym hPs.1 (by omega) hPs.2 hstep⟩
  · intro i A hi
    have hfr := hfresh A (List.getElem?_mem hi)
    rw [hfr.2.2, recompute, hfr.1]
    rfl

/-- Witness for the amended C2 on the concrete one-round
TitForTat-vs-Defector game under the standard (symmetric) matrix. -/
theorem C2_score_additivity_amended_witness :
    (⟨"D", Strategy.defector, [("TFT", [Action.defect])],
       [("TFT", [Action.cooperate])], 5⟩ : Agent).score
      = recompute game8.payoff_matrix
          ⟨"D", Strategy.defector, [("TFT", [Action.defect])],
            [("TFT", [Action.cooperate])], 5⟩ :=
  @C2_score_additivity_amended game8 final8
    (by intro a b; cases a <;> cases b <;> rfl) (by decide) (by decide)
    (by decide)
    ⟨"D", Strategy.defector, [("TFT", [Action.defect])],
      [("TFT", [Action.cooperate])], 5⟩ (by decide)

/-! ### Claim C8: running twice -/

theorem play_pair_names {g : PrisonersDilemma} {agents agents2 : List Agent}
    {p : Nat × Nat} (h : g.play_pair agents p = some agents2) :
    agents2.map Agent.name = agents.map Agent.name := by
  cases hq1 : agents[p.1]? with
  | none => simp [PrisonersDilemma.play_pair, hq1] at h
  | some a1 =>
  cases hq2 : agents[p.2]? with
  | none => simp [PrisonersDilemma.play_pair, hq1, hq2] at h
  | some a2 =>
  cases hpr : g.play_round a1 a2 with
  | none => simp [PrisonersDilemma.play_pair, hq1, hq2, hpr] at h
  | some bb =>
  obtain ⟨b1, b2⟩ := bb
  have hagents2 : agents2 = (agents.set p.1 b1).set p.2 b2 := by
    simp only [PrisonersDilemma.play_pair, hq1, hq2, hpr, Option.bind_eq_bind,
      Option.some_bind, Option.pure_def, Option.some.injEq] at h
    first
    | exact h
    | exact h.symm
  obtain ⟨act1, act2, q1, q2, hc1, hc2, hcp, hb1, hb2⟩ := play_round_eq hpr
  have hb1name : b1.name = a1.name := by rw [hb1]; rfl
  have hb2name : b2.name = a2.name := by rw [hb2]; rfl
  rw [hagents2, List.map_set, List.map_set, hb2name, hb1name,
    set_name_id hq1, set_name_id hq2]

theorem run_pairs_cons {g : PrisonersDilemma} {agents agents2 : List Agent}
    {q0 : Nat × Nat} {L2 : List (Nat × Nat)}
    (h : run_pairs g agents (q0 :: L2) = some agents2) :
    ∃ mid, g.play_pair agents q0 = some mid ∧
      run_pairs g mid L2 = some agents2 := by
  rw [run_pairs, List.foldlM_cons] at h
  cases hs : g.play_pair agents q0 with
  | none =>
      rw [hs] at h
      simp at h
  | some mid =>
      rw [hs] at h
      exact ⟨mid, rfl, h⟩

theorem countP_congr_list {l : List (Nat × Nat)} {p q : Nat × Nat → Bool}
    (h : ∀ a ∈ l, p a = q a) : l.countP p = l.countP q := by
  induction l with
  | nil => rfl
  | cons b rest ih =>
      rw [List.countP_cons, List.countP_cons, h b (List.mem_cons_self _ _),
        ih (fun a ha => h a (List.mem_cons_of_mem _ ha))]

theorem countP_schedule (r n : Nat) (pred : Nat × Nat → Bool) :
    (schedule r n).countP pred = r * (round_pairs n).countP pred := by
  induction r with
  | zero => simp [schedule]
  | succ r ih =>
      rw [schedule, List.range_succ, List.flatMap_append, List.countP_append]
      rw [schedule] at ih
      rw [ih]
      simp
      ring

theorem countP_touch_round_pairs {n i j : Nat} (hij : i ≠ j) (hi : i < n)
    (hj : j < n) : (round_pairs n).countP (touchPair i j) = 1 := by
  rcases Nat.lt_or_ge i j with h | h
  · have hcg : (round_pairs n).countP (touchPair i j)
        = (round_pairs n).countP (fun q => q == (i, j)) := by
      refine countP_congr_list ?_
      intro q hq
      have hmem := mem_round_pairs.mp hq
      have hfalse : (q == (j, i)) = false := by
        rw [beq_eq_false_iff_ne]
        intro h3
        rw [h3] at hmem
        simp at hmem
        omega
      rw [touchPair, hfalse, Bool.or_false]
    rw [hcg]
    exact count_one_of_nodup (nodup_round_pairs n)
      (mem_round_pairs.mpr ⟨h, hj⟩)
  · have h2 : j < i := by omega
    have hcg : (round_pairs n).countP (touchPair i j)
        = (round_pairs n).countP (fun q => q == (j, i)) := by
      refine countP_congr_list ?_
      intro q hq
      have hmem := mem_round_pairs.mp hq
      have hfalse : (q == (i, j)) = false := by
        rw [beq_eq_false_iff_ne]
        intro h3
        rw [h3] at hmem
        simp at hmem
        omega
      rw [touchPair, hfalse, Bool.false_or]
    rw [hcg]
    exact count_one_of_nodup (nodup_round_pairs n)
      (mem_round_pairs.mpr ⟨h2, hi⟩)

theorem histView_update_score (ag : Agent) (q : Int) (k : String) :
    histView (ag.update_score q) k = histView ag k := rfl

theorem oppView_update_score (ag : Agent) (q : Int) (k : String) :
    oppView (ag.update_score q) k = oppView ag k := rfl

/-- Through a fold of `play_pair` over a pair list, the recorded history of
agent `i` against agent `j` grows by exactly the number of scheduled pairs
that play `{i, j}`. -/
theorem run_pairs_hist_len {g : PrisonersDilemma} :
    ∀ (L : List (Nat × Nat)) (agents agents2 : List Agent),
      ListInv agents →
      (∀ q ∈ L, (q : Nat × Nat).1 ≠ q.2) →
      run_pairs g agents L = some agents2 →
      ∀ (i j : Nat) (A B A2 : Agent), i ≠ j →
        agents[i]? = some A → agents[j]? = some B → agents2[i]? = some A2 →
        (histView A2 B.name).length
          = (histView A B.name).length + L.countP (touchPair i j) ∧
        (oppView A2 B.name).length
          = (oppView A B.name).length + L.countP (touchPair i j) := by
  intro L
  induction L with
  | nil =>
      intro agents agents2 hinv hL h i j A B A2 hij hA hB hA2
      rw [run_pairs, List.foldlM_nil] at h
      cases h
      rw [hA] at hA2
      cases hA2
      simp
  | cons q0 L2 ih =>
      intro agents agents2 hinv hL h i j A B A2 hij hA hB hA2
      obtain ⟨mid, hq0, hrest⟩ := run_pairs_cons h
      have hq0ne : q0.1 ≠ q0.2 := hL q0 (List.mem_cons_self _ _)
      obtain ⟨hinv2, hnames⟩ := play_pair_ListInv hinv hq0ne hq0
      have hlenmid : mid.length = agents.length := play_pair_length hq0
      have hi : i < agents.length := (List.getElem?_eq_some_iff.mp hA).1
      have hj : j < agents.length := (List.getElem?_eq_some_iff.mp hB).1
      have hilt : i < mid.length := by omega
      have hjlt : j < mid.length := by omega
      obtain ⟨Am, hAm⟩ : ∃ Am, mid[i]? = some Am :=
        ⟨mid[i], List.getElem?_eq_getElem hilt⟩
      obtain ⟨Bm, hBm⟩ : ∃ Bm, mid[j]? = some Bm :=
        ⟨mid[j], List.getElem?_eq_getElem hjlt⟩
      have hBmname : Bm.name = B.name := by
        have h1 : (mid.map Agent.name)[j]? = some Bm.name := by
          rw [List.getElem?_map, hBm]
          rfl
        rw [hnames, List.getElem?_map, hB] at h1
        exact (Option.some.inj h1).symm
      have hres := ih mid agents2 hinv2
        (fun q hq => hL q (List.mem_cons_of_mem _ hq)) hrest i j Am Bm A2
        hij hAm hBm hA2
      rw [hBmname] at hres
      rw [List.countP_cons]
      have hstep : (histView Am B.name).length
            = (histView A B.name).length
              + (if touchPair i j q0 = true then 1 else 0) ∧
          (oppView Am B.name).length
            = (oppView A B.name).length
              + (if touchPair i j q0 = true then 1 else 0) := by
        cases hq1 : agents[q0.1]? with
        | none => simp [PrisonersDilemma.play_pair, hq1] at hq0
        | some a1 =>
        cases hq2 : agents[q0.2]? with
        | none => simp [PrisonersDilemma.play_pair, hq1, hq2] at hq0
        | some a2 =>
        cases hpr : g.play_round a1 a2 with
        | none => simp [PrisonersDilemma.play_pair, hq1, hq2, hpr] at hq0
        | some bb =>
        obtain ⟨b1, b2⟩ := bb
        have hmid : mid = (agents.set q0.1 b1).set q0.2 b2 := by
          simp only [PrisonersDilemma.play_pair, hq1, hq2, hpr,
            Option.bind_eq_bind, Option.some_bind, Option.pure_def,
            Option.some.injEq] at hq0
          first
          | exact hq0
          | exact hq0.symm
        obtain ⟨act1, act2, p1, p2, hc1, hc2, hcp, hb1, hb2⟩ :=
          play_round_eq hpr
        have hwf1 : AgentWF a1 := hinv.2.1 q0.1 a1 hq1
        have hwf2 : AgentWF a2 := hinv.2.1 q0.2 a2 hq2
        have hAm2 : Am = (if i = q0.2 then b2 else if i = q0.1 then b1 else A) := by
          rw [hmid] at hAm
          by_cases h2 : i = q0.2
          · subst h2
            rw [List.getElem?_set_self
              (by rw [List.length_set]
                  exact (List.getElem?_eq_some_iff.mp hq2).1)] at hAm
            rw [if_pos rfl]
            exact (Option.some.inj hAm).symm
          · rw [List.getElem?_set_ne (fun hx => h2 hx.symm)] at hAm
            rw [if_neg h2]
            by_cases h1 : i = q0.1
            · subst h1
              rw [List.getElem?_set_self
                (List.getElem?_eq_some_iff.mp hq1).1] at hAm
              rw [if_pos rfl]
              exact (Option.some.inj hAm).symm
            · rw [List.getElem?_set_ne (fun hx => h1 hx.symm)] at hAm
              rw [if_neg h1]
              rw [hA] at hAm
              exact (Option.some.inj hAm).symm
        by_cases hi2 : i = q0.2
        · subst hi2
          have hAa2 : A = a2 := by
            rw [hq2] at hA
            exact (Option.some.inj hA).symm
          have hAmb2 : Am = b2 := by
            rw [hAm2, if_pos rfl]
          by_cases hj1 : j = q0.1
          · subst hj1
            have hBa1 : B = a1 := by
              rw [hq1] at hB
              exact (Option.some.inj hB).symm
            have htouch : touchPair q0.2 q0.1 q0 = true := by
              rw [touchPair, Bool.or_eq_true]
              right
              rw [beq_iff_eq]
            rw [if_pos htouch]
            constructor
            · rw [hAmb2, hb2, histView_update_score, hBa1, hAa2,
                histView_update_self]
              simp
            · rw [hAmb2, hb2, oppView_update_score, hBa1, hAa2,
                oppView_update_self a2 a1.name act2 act1
                  (hwf2.dmem_eq a1.name)]
              simp
          · have hBname : B.name ≠ a1.name :=
              names_ne_of_nodup hinv.1 hB hq1 hj1
            have htouch : touchPair q0.2 j q0 = false := by
              rw [touchPair, Bool.or_eq_false_iff]
              constructor
              · rw [beq_eq_false_iff_ne]
                intro h3
                exact hq0ne (congrArg Prod.fst h3)
              · rw [beq_eq_false_iff_ne]
                intro h3
                exact hj1 (congrArg Prod.fst h3).symm
            rw [if_neg (by rw [htouch]; simp)]
            constructor
            · rw [hAmb2, hb2, histView_update_score, hAa2,
                histView_update_ne hBname]
              simp
            · rw [hAmb2, hb2, oppView_update_score, hAa2,
                oppView_update_ne hBname]
              simp
        · by_cases hi1 : i = q0.1
          · subst hi1
            have hAa1 : A = a1 := by
              rw [hq1] at hA
              exact (Option.some.inj hA).symm
            have hAmb1 : Am = b1 := by
              rw [hAm2, if_neg hi2, if_pos rfl]
            by_cases hj2 : j = q0.2
            · subst hj2
              have hBa2 : B = a2 := by
                rw [hq2] at hB
                exact (Option.some.inj hB).symm
              have htouch : touchPair q0.1 q0.2 q0 = true := by
                rw [touchPair, Bool.or_eq_true]
                left
                rw [beq_iff_eq]
              rw [if_pos htouch]
              constructor
              · rw [hAmb1, hb1, histView_update_score, hBa2, hAa1,
                  histView_update_self]
                simp
              · rw [hAmb1, hb1, oppView_update_score, hBa2, hAa1,
                  oppView_update_self a1 a2.name act1 act2
                    (hwf1.dmem_eq a2.name)]
                simp
            · have hBname : B.name ≠ a2.name :=
                names_ne_of_nodup hinv.1 hB hq2 hj2
              have htouch : touchPair q0.1 j q0 = false := by
                rw [touchPair, Bool.or_eq_false_iff]
                constructor
                · rw [beq_eq_false_iff_ne]
                  intro h3
                  exact hj2 (congrArg Prod.snd h3).symm
                · rw [beq_eq_false_iff_ne]
                  intro h3
                  exact hij (congrArg Prod.fst h3)
              rw [if_neg (by rw [htouch]; simp)]
              constructor
              · rw [hAmb1, hb1, histView_update_score, hAa1,
                  histView_update_ne hBname]
                simp
              · rw [hAmb1, hb1, oppView_update_score, hAa1,
                  oppView_update_ne hBname]
                simp
          · have hAmA : Am = A := by
              rw [hAm2, if_neg hi2, if_neg hi1]
            have htouch : touchPair i j q0 = false := by
              rw [touchPair, Bool.or_eq_false_iff]
              constructor
              · rw [beq_eq_false_iff_ne]
                intro h3
                exact hi1 (congrArg Prod.fst h3).symm
              · rw [beq_eq_false_iff_ne]
                intro h3
                exact hi2 (congrArg Prod.snd h3).symm
            rw [if_neg (by rw [htouch]; simp)]
            rw [hAmA]
            constructor <;> simp
      obtain ⟨hs1, hs2⟩ := hstep
      constructor
      · rw [hres.1, hs1]
        omega
      · rw [hres.2, hs2]
        omega

/-- C8 counterexample: for TitForTat vs Defector with the standard matrix
and one round, the first run ends with scores `(0, 5)` and a second `run()`
call ends with scores `(1, 6)` — not the doubled `(0, 10)`. -/
theorem C8_run_twice_counterexample :
    game8.run = some final8 ∧
    ({ game8 with agents := final8 } : PrisonersDilemma).run = some final8x2 ∧
    ¬ (∀ A2 ∈ final8x2, ∀ A1 ∈ final8, A2.name = A1.name →
        A2.score = 2 * A1.score) := by
  refine ⟨by decide, by decide, by decide⟩

/-- C8 amended: calling `run()` a second time on the same game object doubles
the length of every recorded history sequence (each pair gains `rounds` more
entries per run), but the agents' scores after two runs are not in general
twice the scores after one run, because the second run starts from non-empty
histories and so can play different actions. -/
theorem C8_run_twice_amended {g : PrisonersDilemma} {m m2 : List Agent}
    (hnames : (g.agents.map Agent.name).Nodup)
    (hfresh : ∀ A ∈ g.agents, A.history = [] ∧ A.oponent_history = [])
    (hrun1 : g.run = some m)
    (hrun2 : ({ g with agents := m } : PrisonersDilemma).run = some m2) :
    ∀ (i j : Nat) (A B A1 B1 A2 : Agent), i ≠ j →
      g.agents[i]? = some A → g.agents[j]? = some B →
      m[i]? = some A1 → m[j]? = some B1 → m2[i]? = some A2 →
      (histView A2 B.name).length = 2 * (histView A1 B.name).length ∧
      (oppView A2 B.name).length = 2 * (oppView A1 B.name).length := by
  intro i j A B A1 B1 A2 hij hA hB hA1 hB1 hA2
  have hinv : ListInv g.agents := ListInv_fresh hnames hfresh
  have hme := run_eq_schedule g
  rw [hme] at hrun1
  have hLne : ∀ q ∈ schedule g.rounds g.agents.length,
      (q : Nat × Nat).1 ≠ q.2 := by
    intro q hq
    have := mem_schedule hq
    omega
  have h1 := run_pairs_hist_len (schedule g.rounds g.agents.length)
    g.agents m hinv hLne hrun1 i j A B A1 hij hA hB hA1
  have hinvm : ListInv m := (run_pairs_inv hLne hinv hrun1).1
  have hnamesm : m.map Agent.name = g.agents.map Agent.name :=
    (run_pairs_inv hLne hinv hrun1).2
  have hlenm : m.length = g.agents.length := run_pairs_length hrun1
  have hme2 := run_eq_schedule ({ g with agents := m } : PrisonersDilemma)
  rw [hme2] at hrun2
  have hg2a : ({ g with agents := m } : PrisonersDilemma).agents = m := rfl
  have hg2r : ({ g with agents := m } : PrisonersDilemma).rounds
      = g.rounds := rfl
  rw [hg2a, hg2r, hlenm] at hrun2
  have h2 := @run_pairs_hist_len { g with agents := m }
    (schedule g.rounds g.agents.length) m m2 hinvm hLne hrun2 i j A1 B1 A2
    hij hA1 hB1 hA2
  have hB1name : B1.name = B.name := by
    have hx : (m.map Agent.name)[j]? = some B1.name := by
      rw [List.getElem?_map, hB1]
      rfl
    rw [hnamesm, List.getElem?_map, hB] at hx
    exact (Option.some.inj hx).symm
  rw [hB1name] at h2
  have hAv : histView A B.name = [] := by
    rw [histView, (hfresh A (List.getElem?_mem hA)).1]
    rfl
  have hAv2 : oppView A B.name = [] := by
    rw [oppView, (hfresh A (List.getElem?_mem hA)).2]
    rfl
  obtain ⟨e1, e1x⟩ := h1
  obtain ⟨e2, e2x⟩ := h2
  rw [hAv] at e1
  rw [hAv2] at e1x
  constructor
  · rw [e2, e1]
    simp at e1 ⊢
    omega
  · rw [e2x, e1x]
    simp at e1x ⊢
    omega

/-- Witness for the amended C8: TitForTat vs Defector, one round, run twice;
TitForTat's history against the Defector grows from length 1 to length 2. -/
theorem C8_run_twice_amended_witness :
    (histView ⟨"TFT", Strategy.titForTat,
        [("D", [Action.cooperate, Action.defect])],
        [("D", [Action.defect, Action.defect])], 1⟩ "D").length
      = 2 * (histView ⟨"TFT", Strategy.titForTat,
          [("D", [Action.cooperate])], [("D", [Action.defect])], 0⟩
          "D").length :=
  (@C8_run_twice_amended game8 final8 final8x2
    (by decide) (by decide) (by decide) (by decide) 0 1
    (mkAgent Strategy.titForTat "TFT") (mkAgent Strategy.defector "D")
    ⟨"TFT", Strategy.titForTat, [("D", [Action.cooperate])],
      [("D", [Action.defect])], 0⟩
    ⟨"D", Strategy.defector, [("TFT", [Action.defect])],
      [("TFT", [Action.cooperate])], 5⟩
    ⟨"TFT", Strategy.titForTat, [("D", [Action.cooperate, Action.defect])],
      [("D", [Action.defect, Action.defect])], 1⟩
    (by decide) (by decide) (by decide) (by decide) (by decide)
    (by decide)).1

end PD
